import Mathlib

/-!
# Verification of the TimeToAct DocumentAI tokenizer and parser

A shallow embedding of `src/embrace_ai_katas/timetoact/tokenizer.py` and
`src/embrace_ai_katas/timetoact/parser.py`.

Python strings are modelled as `List Char` (Python strings are sequences of
code points, as is `List Char`).  Python library functions used by the code
(`str.strip`, `str.split`, `str.startswith`, `in`, `dict` insertion) are
modelled by explicit Lean functions below; `str.strip` is modelled over the
ASCII whitespace characters (all inputs appearing in this development are
covered by that set).  Functions that can raise are modelled in
`Except PErr`; the recursive-descent parser is given explicit fuel (the
Python recursion is unbounded because an ordered-list continuation line can
re-parse an embedded `<dict>` sub-document), with fuel exhaustion as a
distinguished outcome `PErr.outOfFuel`.
-/

set_option maxHeartbeats 4000000

namespace TimeToAct

/-- Abbreviation used for modelled Python strings. -/
abbrev Str := List Char

/-- Code-point list of a Lean string literal (used to write concrete inputs). -/
def str (s : String) : Str := s.data

/-- Python `str` whitespace, restricted to the ASCII range
(space, tab, newline, carriage return, vertical tab, form feed). -/
def isPySpace (c : Char) : Bool :=
  c = ' ' || c = '\t' || c = '\n' || c = '\r' || c = '\x0b' || c = '\x0c'

/-- Python `str.strip()`: drop leading and trailing whitespace. -/
def pyStrip (l : Str) : Str :=
  ((l.dropWhile isPySpace).reverse.dropWhile isPySpace).reverse

/-- Python `"".join(parts)`. -/
def strJoin : List Str → Str
  | [] => []
  | p :: ps => p ++ strJoin ps

/-- Python `"\n".join(parts)`. -/
def joinNl : List Str → Str
  | [] => []
  | [p] => p
  | p :: ps => p ++ '\n' :: joinNl ps

/-- Python `needle in haystack` (substring containment; `""` is in everything). -/
def isSubstr (needle : Str) : Str → Bool
  | [] => needle.isPrefixOf []
  | c :: t => needle.isPrefixOf (c :: t) || isSubstr needle t

/-- Python `line.split(sep, 1)` for a non-empty separator that occurs in
`line`: split at the first occurrence.  When the separator does not occur
the whole input is returned as the first component (the parser only calls
this under an `isSubstr` guard). -/
def pySplit1 (sep : Str) : Str → Str × Str
  | [] => ([], [])
  | c :: t =>
    if sep.isPrefixOf (c :: t) then ([], (c :: t).drop sep.length)
    else
      let (a, b) := pySplit1 sep t
      (c :: a, b)

/-- Python `content.split("\n")` (always at least one piece; an empty input
yields `[""]`). -/
def splitNl : Str → List Str
  | [] => [[]]
  | c :: t =>
    let r := splitNl t
    if c = '\n' then [] :: r
    else
      match r with
      | h :: r' => (c :: h) :: r'
      | [] => [[c]]

/-- Python `text.split("\n\n")`, with explicit fuel (callers pass
`text.length + 1`, which is always sufficient: every step consumes at least
one character). -/
def splitNN : Nat → Str → List Str
  | 0, l => [l]
  | fuel + 1, l =>
    if (['\n', '\n'] : Str).isPrefixOf l then [] :: splitNN fuel (l.drop 2)
    else
      match l with
      | [] => [[]]
      | c :: t =>
        match splitNN fuel t with
        | h :: r => (c :: h) :: r
        | [] => [[c]]

/-- Python `dict` insertion `d[k] = v`: overwrite the value in place when the
key is present, append a new entry otherwise. -/
def pyInsert : List (Str × Str) → Str → Str → List (Str × Str)
  | [], k, v => [(k, v)]
  | (k0, v0) :: t, k, v =>
    if k0 = k then (k0, v) :: t else (k0, v0) :: pyInsert t k v

/-- Python `d[k]` / `k in d` as an optional lookup. -/
def pyLookup (items : List (Str × Str)) (k : Str) : Option Str :=
  (items.find? (fun p => p.1 = k)).map (·.2)

/-! ## Tokenizer (`tokenizer.py`) -/

/-- `TokenType` from `tokenizer.py`. -/
inductive TokType where
  | tagOpen | tagClose | text | newline | eof
deriving DecidableEq, Repr

/-- `Token` from `tokenizer.py`: type, raw value, 1-based line and column,
and for tags the tag name and optional attribute mapping. -/
structure Token where
  type : TokType
  value : Str
  line : Nat
  column : Nat
  tagName : Option Str
  attributes : Option (List (Str × Str))
deriving DecidableEq, Repr

/-- A word character for the regex class `\w` (ASCII letters, digits, `_`;
Python additionally accepts non-ASCII word characters, which no input in
this development and no tag of the format uses). -/
def isWordChar (c : Char) : Bool :=
  c.isAlphanum || c = '_'

/-- The components of a successful `TAG_PATTERN` match
(`<(/?)(\w+)(\s+[^>]+)?>` anchored at the start of the input):
closing flag, tag name, the raw group-3 attribute string when present, and
the total number of characters matched. -/
structure TagM where
  isClose : Bool
  name : Str
  attrsStr : Option Str
  len : Nat
deriving DecidableEq, Repr

/-- The end of a `TAG_PATTERN` match when the optional attribute group
participates: `run` is the whole run of non-`>` characters after the tag
name (already known to start with whitespace) and `rest2` what follows it;
the group matches — after backtracking inside `\s+[^>]+` — exactly when a
`>` follows the run and the run has length at least two. -/
def matchTagAttrs (isClose : Bool) (slashLen : Nat) (name run rest2 : Str) :
    Option TagM :=
  match rest2 with
  | '>' :: _ =>
    if 2 ≤ run.length then
      some ⟨isClose, name, some run, 1 + slashLen + name.length + run.length + 1⟩
    else none
  | _ => none

/-- The part of a `TAG_PATTERN` match after the tag name: either an
immediate `>`, or the optional group followed by `>` (the group run must
start with a whitespace character). -/
def matchTagRest (isClose : Bool) (slashLen : Nat) (name r2 : Str) :
    Option TagM :=
  match r2 with
  | '>' :: _ => some ⟨isClose, name, none, 1 + slashLen + name.length + 1⟩
  | c :: r2' =>
    if isPySpace c then
      matchTagAttrs isClose slashLen name
        ((c :: r2').takeWhile (fun x => decide (x ≠ '>')))
        ((c :: r2').drop
          ((c :: r2').takeWhile (fun x => decide (x ≠ '>'))).length)
    else none
  | [] => none

/-- The part of a `TAG_PATTERN` match after the `<` and the optional `/`
(whose presence and length are passed in): the tag name `\w+` (non-empty),
then the rest. -/
def matchTagCore (isClose : Bool) (slashLen : Nat) (r1 : Str) : Option TagM :=
  if r1.takeWhile isWordChar = [] then none
  else
    matchTagRest isClose slashLen (r1.takeWhile isWordChar)
      (r1.drop (r1.takeWhile isWordChar).length)

/-- Anchored match of `TAG_PATTERN = <(/?)(\w+)(\s+[^>]+)?>` against the
start of `l`. -/
def matchTag (l : Str) : Option TagM :=
  match l with
  | '<' :: '/' :: r => matchTagCore true 1 r
  | '<' :: r => matchTagCore false 0 r
  | _ => none

/-- Anchored match of `ATTR_PATTERN = (\w+)="([^"]*)"`: returns the key, the
value and the number of characters consumed. -/
def attrMatch (l : Str) : Option (Str × Str × Nat) :=
  let name := l.takeWhile isWordChar
  if name = [] then none
  else
    match l.drop name.length with
    | '=' :: '"' :: r =>
      let val := r.takeWhile (fun x => decide (x ≠ '"'))
      match r.drop val.length with
      | '"' :: _ => some (name, val, name.length + 2 + val.length + 1)
      | _ => none
    | _ => none

/-- `ATTR_PATTERN.finditer`: non-overlapping left-to-right scan.  On a match
of `n` characters the scan resumes after the match (`n ≥ 4` always holds, so
dropping `n - 1` characters of the tail is exactly that); on failure it
advances one character. -/
def findAttrsAux : Nat → Str → List (Str × Str)
  | 0, _ => []
  | _, [] => []
  | fuel + 1, c :: t =>
    match attrMatch (c :: t) with
    | some (k, v, n) => (k, v) :: findAttrsAux fuel (t.drop (n - 1))
    | none => findAttrsAux fuel t

/-- `findAttrsAux` with enough fuel (each step consumes at least one
character). -/
def findAttrs (l : Str) : List (Str × Str) :=
  findAttrsAux (l.length + 1) l

/-- `Tokenizer._parse_attributes`: collect the matches into a Python dict. -/
def parseAttributes (l : Str) : List (Str × Str) :=
  (findAttrs l).foldl (fun acc kv => pyInsert acc kv.1 kv.2) []

/-- The tokenizer cursor: remaining input, current 1-based line and column
(`self.pos/self.line/self.column`). -/
structure TokState where
  rem : Str
  line : Nat
  column : Nat
deriving DecidableEq, Repr

/-- `Tokenizer._advance` for a single character: `\n` starts a new line,
anything else (including `\r`) only advances the column. -/
def advance1 (st : TokState) : TokState :=
  match st.rem with
  | [] => st
  | c :: t =>
    if c = '\n' then ⟨t, st.line + 1, 1⟩ else ⟨t, st.line, st.column + 1⟩

/-- `Tokenizer._advance(count)`. -/
def advanceN : Nat → TokState → TokState
  | 0, st => st
  | n + 1, st => advanceN n (advance1 st)

/-- `Tokenizer._at_tag`, as a function of the remaining input. -/
def atTagL (l : Str) : Bool :=
  match l with
  | '<' :: _ => (matchTag l).isSome
  | _ => false

/-- `Tokenizer._at_tag`. -/
def atTag (st : TokState) : Bool := atTagL st.rem

/-- `Tokenizer._at_newline` (`self.text[self.pos] in "\r\n"`), as a
function of the remaining input. -/
def atNewlineL (l : Str) : Bool :=
  match l with
  | c :: _ => c = '\r' || c = '\n'
  | [] => false

/-- `Tokenizer._at_newline`. -/
def atNewline (st : TokState) : Bool := atNewlineL st.rem

/-- `Tokenizer._read_tag`, minus the `ValueError` branch: `none` exactly
where Python would raise `ValueError` (the pattern fails to match). -/
def readTag (st : TokState) : Option (Token × TokState) :=
  (matchTag st.rem).map fun m =>
    (⟨if m.isClose then .tagClose else .tagOpen,
      st.rem.take m.len, st.line, st.column, some m.name,
      m.attrsStr.map parseAttributes⟩,
     advanceN m.len st)

/-- `Tokenizer._read_newline`: a canonical `"\n"` token; a `\r\n` pair
consumes two characters, otherwise one. -/
def readNewline (st : TokState) : Token × TokState :=
  (⟨.newline, ['\n'], st.line, st.column, none, none⟩,
   match st.rem with
   | '\r' :: '\n' :: _ => advanceN 2 st
   | _ => advanceN 1 st)

/-- The characters consumed by `Tokenizer._read_text`: a maximal run that is
neither the start of a tag nor a newline (the tag/newline tests only look at
the remaining input). -/
def takeTextChars : Str → Str
  | [] => []
  | c :: t =>
    if atTagL (c :: t) || atNewlineL (c :: t) then []
    else c :: takeTextChars t

/-- `Tokenizer._read_text`: the token records the column where the text
starts and the line reached after consuming it (text never contains `\r` or
`\n`, so that line equals the starting line). -/
def readText (st : TokState) : Token × TokState :=
  let cs := takeTextChars st.rem
  let st' := advanceN cs.length st
  (⟨.text, cs, st'.line, st.column, none, none⟩, st')

/-- Errors of the embedded Python code.  `parseError` is the parser's
`ParseError` (message, 1-based line, 1-based column); `valueError` is a
Python `ValueError` (raised by `str.split` on an empty separator, and
declared — unreachably — in `Tokenizer._read_tag`); `outOfFuel` marks fuel
exhaustion of the embedding and corresponds to no Python behaviour. -/
inductive PErr where
  | parseError (msg : Str) (line column : Nat)
  | valueError (msg : Str)
  | outOfFuel
deriving DecidableEq, Repr

/-- One iteration of the `Tokenizer.tokenize` loop (the position is known
to be in range): a tag token where `_at_tag` holds (with the — unreachable
— `ValueError` when the re-match fails), a newline token where
`_at_newline` holds, and a text token otherwise. -/
def tokStep (st : TokState) : Except PErr (Token × TokState) :=
  if atTag st then
    match readTag st with
    | none => .error (.valueError (str "Invalid tag"))
    | some r => .ok r
  else if atNewline st then .ok (readNewline st)
  else .ok (readText st)

/-- `Tokenizer.tokenize`, with fuel (`tokenize` always passes enough: every
step consumes at least one input character). -/
def tokenizeAux : Nat → TokState → Except PErr (List Token)
  | 0, _ => .error .outOfFuel
  | fuel + 1, st =>
    match st.rem with
    | [] => .ok [⟨.eof, [], st.line, st.column, none, none⟩]
    | _ :: _ =>
      match tokStep st with
      | .error e => .error e
      | .ok (tok, st') =>
        match tokenizeAux fuel st' with
        | .error e => .error e
        | .ok ts => .ok (tok :: ts)

/-- The token stream of an input text (`Tokenizer(text).tokenize()`,
materialised; it always ends in exactly one EOF token). -/
def tokenize (l : Str) : Except PErr (List Token) :=
  tokenizeAux (l.length + 1) ⟨l, 1, 1⟩

/-! ## Data model (`models.py`)

`kind` fields are the fixed literals `"block"`, `"dict"`, `"list"` and are
not stored; a `ContentNode` that is a plain string is the `.text`
constructor. -/

mutual
/-- `ContentNode = Union[str, Block, ListBlock, Dictionary]`. -/
inductive CNode where
  | text (s : Str)
  | blk (b : Blk)
  | lst (l : LBlk)
  | dct (d : Dct)

/-- `Block`: optional dotted `number`, optional `head`, ordered `body`. -/
inductive Blk where
  | mk (number : Option Str) (head : Option Str) (body : List CNode)

/-- `ListBlock`: ordered `items`, each a `Block`. -/
inductive LBlk where
  | mk (items : List Blk)

/-- `Dictionary`: insertion-ordered key/value `items`. -/
inductive Dct where
  | mk (items : List (Str × Str))
end

/-- The `number` field of a `Block`. -/
def Blk.number : Blk → Option Str
  | .mk n _ _ => n

/-- The `head` field of a `Block`. -/
def Blk.head : Blk → Option Str
  | .mk _ h _ => h

/-- The `body` field of a `Block`. -/
def Blk.body : Blk → List CNode
  | .mk _ _ b => b

/-- The `items` field of a `ListBlock`. -/
def LBlk.items : LBlk → List Blk
  | .mk is => is

/-- The `items` field of a `Dictionary`. -/
def Dct.items : Dct → List (Str × Str)
  | .mk is => is

/-! ## Parser (`parser.py`) -/

/-- The parser's fallback token: `Token(TokenType.EOF, "", 0, 0)` is
substituted when the token stream is exhausted (`Parser._advance`). -/
def eofFallback : Token := ⟨.eof, [], 0, 0, none, none⟩

/-- `self.current`: the head of the remaining token stream. -/
def cur (ts : List Token) : Token := ts.headD eofFallback

/-- `Parser._is_opening_tag`. -/
def isOpeningTag (name : Str) (t : Token) : Prop :=
  t.type = .tagOpen ∧ t.tagName = some name

instance (name : Str) (t : Token) : Decidable (isOpeningTag name t) :=
  inferInstanceAs (Decidable (_ ∧ _))

/-- `Parser._is_closing_tag`. -/
def isClosingTag (name : Str) (t : Token) : Prop :=
  t.type = .tagClose ∧ t.tagName = some name

instance (name : Str) (t : Token) : Decidable (isClosingTag name t) :=
  inferInstanceAs (Decidable (_ ∧ _))

/-- The message of `Parser._expect_tag`'s error:
`f"Expected {tag_type} {tag_name} tag"`. -/
def expectedMsg (name : Str) (closing : Bool) : Str :=
  str "Expected " ++ (if closing then str "closing" else str "opening")
    ++ [' '] ++ name ++ str " tag"

/-- `Parser._expect_tag`: consume the current token when it is the expected
kind and name, otherwise a `ParseError` at the current token's position. -/
def expectTag (name : Str) (closing : Bool) (ts : List Token) :
    Except PErr (List Token) :=
  if (cur ts).type = (if closing then TokType.tagClose else TokType.tagOpen) ∧
      (cur ts).tagName = some name then .ok ts.tail
  else
    .error (.parseError (expectedMsg name closing) (cur ts).line
      (cur ts).column)

/-- `Parser._flush_text`: join the buffer, strip it; when non-empty, split
on `"\n\n"` and append each non-empty stripped paragraph as a text node. -/
def flushText (buf : List Str) (content : List CNode) : List CNode :=
  if buf = [] then content
  else if pyStrip (strJoin buf) = [] then content
  else
    content ++
      (((splitNN ((pyStrip (strJoin buf)).length + 1)
          (pyStrip (strJoin buf))).map pyStrip).filter
        (fun p => p ≠ [])).map CNode.text

/-- The attribute lookup `tag_token.attributes and key in tag_token.attributes`. -/
def attrGet (t : Token) (key : Str) : Option Str :=
  match t.attributes with
  | none => none
  | some attrs => pyLookup attrs key

/-- The entry produced by one non-empty dict line (`Parser._parse_dict`'s
per-line loop), for a non-empty separator: split at the first separator
occurrence when present (both sides stripped), otherwise the stripped line
with an empty value. -/
def dictLineEntry (sep : Str) (line : Str) : Option (Str × Str) :=
  if line = [] then none
  else if isSubstr sep line then
    let (k, v) := pySplit1 sep line
    some (pyStrip k, pyStrip v)
  else some (pyStrip line, [])

/-- The `for line in lines` loop of `Parser._parse_dict`.  With an empty
separator, the first non-empty line hits `line.split("", 1)`, which raises
Python `ValueError: empty separator`. -/
def dictEntries (sep : Str) : List Str → List (Str × Str) →
    Except PErr (List (Str × Str))
  | [], items => .ok items
  | line :: rest, items =>
    if line = [] then dictEntries sep rest items
    else if isSubstr sep line then
      if sep = [] then .error (.valueError (str "empty separator"))
      else
        let (k, v) := pySplit1 sep line
        dictEntries sep rest (pyInsert items (pyStrip k) (pyStrip v))
    else dictEntries sep rest (pyInsert items (pyStrip line) [])

/-- Attach a closed ordered/unordered list item to its parent block: append
it to the parent's trailing nested `ListBlock` when the parent's last body
element is one, otherwise append a new one-item `ListBlock`.

The Python code performs this attachment when the item is created and then
mutates the item in place through the `(number, item)` stack alias; here the
attachment is performed when the item is closed (popped), which is
equivalent because nothing is appended to the parent's body while a child
item is open (continuation lines and embedded-dict splices always target
the innermost open item). -/
def attachChild (parent : Blk) (child : Blk) : Blk :=
  match parent.body.getLast? with
  | some (.lst lb) =>
    ⟨parent.number, parent.head,
      parent.body.dropLast ++ [.lst ⟨lb.items ++ [child]⟩]⟩
  | _ => ⟨parent.number, parent.head, parent.body ++ [.lst ⟨[child]⟩]⟩

/-- The continuation of a pop in progress: `pending` is the item just
popped (with everything already attached inside it); each further entry
whose level is still `≥ level` is popped as well, receiving `pending`
first; the first surviving entry receives `pending` and stays open; when
nothing survives, `pending` joins the top-level item list. -/
def popWhileGo (level : Nat) (root : List Blk) (pending : Blk) :
    List (Str × Blk) → List Blk × List (Str × Blk)
  | [] => (root ++ [pending], [])
  | (n2, p) :: t =>
    if level ≤ n2.count '.' then popWhileGo level root (attachChild p pending) t
    else (root, (n2, attachChild p pending) :: t)

/-- Pop the ordered-list stack (`while stack and stack[-1][0].count(".") >=
level`), attaching each popped item to the entry below it, or to the
top-level item list when it is the bottom entry.  The stack's top is the
head of the list. -/
def popWhile (level : Nat) (root : List Blk) :
    List (Str × Blk) → List Blk × List (Str × Blk)
  | [] => (root, [])
  | (n, b) :: rest =>
    if level ≤ n.count '.' then popWhileGo level root b rest
    else (root, (n, b) :: rest)

/-- Fold a closed item into each remaining open ancestor in turn. -/
def foldAttach (pending : Blk) : List (Str × Blk) → Blk
  | [] => pending
  | (_, p) :: t => foldAttach (attachChild p pending) t

/-- Close every still-open item at the end of the ordered-list loop
(in Python the items are already linked into the tree; in the deferred
model each is attached to the entry below it in turn). -/
def finalizeStack (root : List Blk) : List (Str × Blk) → List Blk
  | [] => root
  | (_, b) :: rest => root ++ [foldAttach b rest]

/-- The greedy collection of an embedded `<dict` region's lines
(`dict_lines = [line]; while j < len(lines) and "</dict>" not in
dict_lines[-1]: ...`): the first component is the collected lines, the
second the remaining lines. -/
def collectDictLines (first : Str) : List Str → List Str × List Str
  | [] => ([first], [])
  | l :: t =>
    if isSubstr (str "</dict>") first then ([first], l :: t)
    else
      let (ds, rem) := collectDictLines l t
      (first :: ds, rem)

/-- The consumed `(\.\d+)*` repetitions of the ordered-list pattern,
starting after the leading digit group: consume `.`-digit segments while
possible, with explicit fuel (each segment consumes at least two
characters, so `l.length` suffices). -/
def dotSegs : Nat → Str → Str × Str
  | 0, l => ([], l)
  | fuel + 1, l =>
    match l with
    | '.' :: t =>
      let ds := t.takeWhile Char.isDigit
      if ds = [] then ([], l)
      else
        let (g, r) := dotSegs fuel (t.drop ds.length)
        ('.' :: ds ++ g, r)
    | _ => ([], l)

/-- Anchored match of the ordered-list line pattern
`^(\d+(?:\.\d+)*)\.\s+(.*)$` against a stripped line (which contains no
newline): the captured dotted number and the trailing text.  Backtracking
cannot rescue a failed match with a shorter group (any shorter split puts a
digit right after the mandatory dot, where `\s+` fails), so the greedy
first-try is the regex's answer. -/
def ordMatch (line : Str) : Option (Str × Str) :=
  let d0 := line.takeWhile Char.isDigit
  if d0 = [] then none
  else
    let (segs, rest) := dotSegs line.length (line.drop d0.length)
    match rest with
    | '.' :: r2 =>
      let ws := r2.takeWhile isPySpace
      if ws = [] then none
      else some (d0 ++ segs, r2.drop ws.length)
    | _ => none

/-- The line loop of `Parser._process_unordered_list`, with the two
mutable locals `items` and `current_item` as explicit state: a line whose
stripped form starts with the bullet marker closes the open item (if any)
and opens a new one; a line starting with `"o "` while an item is open
attaches a sub-item to it; any other non-blank line while an item is open
is appended stripped as text; other lines are discarded; at the end the
open item (if any) is closed. -/
def unordGo (items : List Blk) (currentItem : Option Blk) : List Str → LBlk
  | [] =>
    match currentItem with
    | some b => ⟨items ++ [b]⟩
    | none => ⟨items⟩
  | line :: rest =>
    let s := pyStrip line
    if s = [] then unordGo items currentItem rest
    else if (str "â€¢ ").isPrefixOf s then
      match currentItem with
      | some b =>
        unordGo (items ++ [b]) (some ⟨none, some (pyStrip (s.drop 2)), []⟩) rest
      | none => unordGo items (some ⟨none, some (pyStrip (s.drop 2)), []⟩) rest
    else
      match currentItem with
      | some b =>
        if (str "o ").isPrefixOf s then
          unordGo items
            (some (attachChild b ⟨none, some (pyStrip (s.drop 2)), []⟩)) rest
        else unordGo items (some ⟨b.number, b.head, b.body ++ [.text s]⟩) rest
      | none => unordGo items none rest

/-- `Parser._process_unordered_list`.  The bullet-marker literal in the
source file is the three characters `â€¢` (the UTF-8 bytes of `•` read back
as Latin-1), and `line.strip()[2:]` drops only two characters. -/
def processUnorderedList (lines : List Str) : LBlk :=
  unordGo [] none lines

/-- The newline-skipping loop at the start of `Parser._parse_block`. -/
def skipNewlines : List Token → List Token
  | [] => []
  | t :: ts => if t.type = .newline then skipNewlines ts else t :: ts

/-! The recursive-descent routines.  Every function takes fuel as its first
argument and passes it decremented to every (mutually) recursive call; the
iteration state of each Python `while` loop is explicit (`buf`/`acc`/
`curLine`/`lines`/`parts`/`root`/`stack`).  Each function returns its value
together with the remaining token stream. -/

mutual

/-- `Parser.parse`: optional leading `head`, then content until EOF, on a
fresh root block. -/
def parseTokens : Nat → List Token → Except PErr Blk
  | 0, _ => .error .outOfFuel
  | fuel + 1, ts =>
    if isOpeningTag (str "head") (cur ts) then
      match parseHead fuel ts with
      | .error e => .error e
      | .ok (h, ts1) =>
        match parseContent fuel none [] [] ts1 with
        | .error e => .error e
        | .ok (body, _) => .ok ⟨none, some h, body⟩
    else
      match parseContent fuel none [] [] ts with
      | .error e => .error e
      | .ok (body, _) => .ok ⟨none, none, body⟩

/-- `Parser._parse_content`: `untilTag` is the enclosing tag whose closing
form terminates this run; `buf` is the in-flight text buffer; `acc` the
content collected so far. -/
def parseContent : Nat → Option Str → List Str → List CNode → List Token →
    Except PErr (List CNode × List Token)
  | 0, _, _, _, _ => .error .outOfFuel
  | fuel + 1, untilTag, buf, acc, ts =>
    let c := cur ts
    if c.type = .eof then .ok (flushText buf acc, ts)
    else if (match untilTag with
             | some tname => decide (isClosingTag tname c)
             | none => false) then
      .ok (flushText buf acc, ts)
    else if isOpeningTag (str "head") c then
      .error (.parseError (str "Unexpected head tag in content") c.line c.column)
    else if isOpeningTag (str "block") c then
      match parseBlock fuel ts with
      | .error e => .error e
      | .ok (b, ts1) =>
        parseContent fuel untilTag [] (flushText buf acc ++ [CNode.blk b]) ts1
    else if isOpeningTag (str "dict") c then
      match parseDict fuel ts with
      | .error e => .error e
      | .ok (d, ts1) =>
        parseContent fuel untilTag [] (flushText buf acc ++ [CNode.dct d]) ts1
    else if isOpeningTag (str "list") c then
      match parseList fuel ts with
      | .error e => .error e
      | .ok (l, ts1) =>
        parseContent fuel untilTag [] (flushText buf acc ++ [CNode.lst l]) ts1
    else if c.type = .text then
      parseContent fuel untilTag (buf ++ [c.value]) acc ts.tail
    else if c.type = .newline then
      parseContent fuel untilTag (buf ++ [['\n']]) acc ts.tail
    else parseContent fuel untilTag buf acc ts.tail

/-- `Parser._parse_head`: expect the opening tag, then the text-collecting
loop. -/
def parseHead : Nat → List Token → Except PErr (Str × List Token)
  | 0, _ => .error .outOfFuel
  | fuel + 1, ts =>
    match expectTag (str "head") false ts with
    | .error e => .error e
    | .ok ts1 => headGo fuel [] ts1

/-- The `while not self._is_closing_tag("head")` loop of
`Parser._parse_head`: only text-token values accumulate; EOF is an error;
everything else is skipped; the result is the joined text, stripped. -/
def headGo : Nat → List Str → List Token → Except PErr (Str × List Token)
  | 0, _, _ => .error .outOfFuel
  | fuel + 1, buf, ts =>
    let c := cur ts
    if isClosingTag (str "head") c then
      match expectTag (str "head") true ts with
      | .error e => .error e
      | .ok ts1 => .ok (pyStrip (strJoin buf), ts1)
    else if c.type = .text then headGo fuel (buf ++ [c.value]) ts.tail
    else if c.type = .eof then
      .error (.parseError (str "Unexpected EOF in head tag") c.line c.column)
    else headGo fuel buf ts.tail

/-- `Parser._parse_block`: opening tag, newline skipping, optional head,
content until the closing `block` tag, which is then consumed. -/
def parseBlock : Nat → List Token → Except PErr (Blk × List Token)
  | 0, _ => .error .outOfFuel
  | fuel + 1, ts =>
    match expectTag (str "block") false ts with
    | .error e => .error e
    | .ok ts1 =>
      let ts2 := skipNewlines ts1
      if isOpeningTag (str "head") (cur ts2) then
        match parseHead fuel ts2 with
        | .error e => .error e
        | .ok (h, ts3) =>
          match parseContent fuel (some (str "block")) [] [] ts3 with
          | .error e => .error e
          | .ok (body, ts4) =>
            match expectTag (str "block") true ts4 with
            | .error e => .error e
            | .ok ts5 => .ok (⟨none, some h, body⟩, ts5)
      else
        match parseContent fuel (some (str "block")) [] [] ts2 with
        | .error e => .error e
        | .ok (body, ts4) =>
          match expectTag (str "block") true ts4 with
          | .error e => .error e
          | .ok ts5 => .ok (⟨none, none, body⟩, ts5)

/-- `Parser._parse_dict`: the separator defaults to `":"` and is overridden
by the opening tag's `sep` attribute; then the line-collecting loop. -/
def parseDict : Nat → List Token → Except PErr (Dct × List Token)
  | 0, _ => .error .outOfFuel
  | fuel + 1, ts =>
    let tagTok := cur ts
    match expectTag (str "dict") false ts with
    | .error e => .error e
    | .ok ts1 =>
      let sep := (attrGet tagTok (str "sep")).getD (str ":")
      dictGo fuel sep [] [] ts1

/-- The `while not self._is_closing_tag("dict")` loop of
`Parser._parse_dict`: text accumulates into the current line, a newline
closes a non-empty current line (stripped), EOF is an error, other tokens
are skipped; at the closing tag the final partial line is included if
non-empty, the entries are computed, and the closing tag is consumed. -/
def dictGo : Nat → Str → List Str → List Str → List Token →
    Except PErr (Dct × List Token)
  | 0, _, _, _, _ => .error .outOfFuel
  | fuel + 1, sep, curLine, lines, ts =>
    let c := cur ts
    if isClosingTag (str "dict") c then
      let lines2 :=
        if curLine = [] then lines else lines ++ [pyStrip (strJoin curLine)]
      match dictEntries sep lines2 [] with
      | .error e => .error e
      | .ok items =>
        match expectTag (str "dict") true ts with
        | .error e => .error e
        | .ok ts1 => .ok (⟨items⟩, ts1)
    else if c.type = .text then dictGo fuel sep (curLine ++ [c.value]) lines ts.tail
    else if c.type = .newline then
      if curLine = [] then dictGo fuel sep [] lines ts.tail
      else dictGo fuel sep [] (lines ++ [pyStrip (strJoin curLine)]) ts.tail
    else if c.type = .eof then
      .error (.parseError (str "Unexpected EOF in dict tag") c.line c.column)
    else dictGo fuel sep curLine lines ts.tail

/-- `Parser._parse_list`: the kind defaults to `"."` and is overridden by
the opening tag's `kind` attribute; then the raw-content-collecting loop. -/
def parseList : Nat → List Token → Except PErr (LBlk × List Token)
  | 0, _ => .error .outOfFuel
  | fuel + 1, ts =>
    let tagTok := cur ts
    match expectTag (str "list") false ts with
    | .error e => .error e
    | .ok ts1 =>
      let kind := (attrGet tagTok (str "kind")).getD (str ".")
      listGo fuel kind [] ts1

/-- The `while not self._is_closing_tag("list")` loop of
`Parser._parse_list`: EOF is an error; text, newlines (as `"\n"`) and the
raw text of any other tag accumulate verbatim; at the closing tag the
joined content is stripped, split into lines and processed. -/
def listGo : Nat → Str → List Str → List Token →
    Except PErr (LBlk × List Token)
  | 0, _, _, _ => .error .outOfFuel
  | fuel + 1, kind, parts, ts =>
    let c := cur ts
    if isClosingTag (str "list") c then
      match expectTag (str "list") true ts with
      | .error e => .error e
      | .ok ts1 =>
        match processListLines fuel (splitNl (pyStrip (strJoin parts))) kind with
        | .error e => .error e
        | .ok lb => .ok (lb, ts1)
    else if c.type = .eof then
      .error (.parseError (str "Unexpected EOF in list tag") c.line c.column)
    else if c.type = .text then listGo fuel kind (parts ++ [c.value]) ts.tail
    else if c.type = .newline then listGo fuel kind (parts ++ [['\n']]) ts.tail
    else if c.type = .tagOpen then listGo fuel kind (parts ++ [c.value]) ts.tail
    else if c.type = .tagClose then listGo fuel kind (parts ++ [c.value]) ts.tail
    else listGo fuel kind parts ts.tail

/-- `Parser._process_list_lines`: `"."` selects the ordered algorithm,
`"*"` the unordered one, anything else an empty `ListBlock`. -/
def processListLines : Nat → List Str → Str → Except PErr LBlk
  | 0, _, _ => .error .outOfFuel
  | fuel + 1, lines, kind =>
    if kind = str "." then ordGo fuel lines [] []
    else if kind = str "*" then .ok (processUnorderedList lines)
    else .ok ⟨[]⟩

/-- The line loop of `Parser._process_ordered_list`: blank lines are
skipped; a line matching the numeric-prefix pattern becomes a new item
(stack popped by level first, then the item pushed); an unmatched line with
a non-empty stack is continuation content for the innermost open item —
an embedded `<dict` region is re-tokenized, re-parsed and its body spliced
in, any other line is appended stripped as text; an unmatched line with an
empty stack is discarded. -/
def ordGo : Nat → List Str → List Blk → List (Str × Blk) →
    Except PErr LBlk
  | 0, _, _, _ => .error .outOfFuel
  | fuel + 1, lines, root, stack =>
    match lines with
    | [] => .ok ⟨finalizeStack root stack⟩
    | lraw :: rest =>
      let line := pyStrip lraw
      if line = [] then ordGo fuel rest root stack
      else
        match ordMatch line with
        | some (number, text) =>
          let level := number.count '.'
          let (root2, stack2) := popWhile level root stack
          ordGo fuel rest root2
            ((number, (⟨some number, some text, []⟩ : Blk)) :: stack2)
        | none =>
          match stack with
          | [] => ordGo fuel rest root stack
          | (n0, top) :: stk =>
            if isSubstr (str "<dict") line then
              let (ds, rem) := collectDictLines line rest
              match tokenize (joinNl ds) with
              | .error e => .error e
              | .ok ts =>
                match parseTokens fuel ts with
                | .error e => .error e
                | .ok parsed =>
                  ordGo fuel rem root
                    ((n0, ⟨top.number, top.head, top.body ++ parsed.body⟩) :: stk)
            else
              ordGo fuel rest root
                ((n0, ⟨top.number, top.head, top.body ++ [.text line]⟩) :: stk)

end

/-- `parse(text)`: tokenize, then parse, with the given fuel. -/
def pyParse (fuel : Nat) (text : Str) : Except PErr Blk :=
  match tokenize text with
  | .error e => .error e
  | .ok ts => parseTokens fuel ts

/-! ## Definitions for the dictionary claims (C3, C7) -/

/-- The effect of `Parser._parse_dict`'s entry loop as a total function,
for a non-empty separator (where the `ValueError` branch is unreachable). -/
def dictFold (sep : Str) : List Str → List (Str × Str) → List (Str × Str)
  | [], items => items
  | line :: rest, items =>
    match dictLineEntry sep line with
    | none => dictFold sep rest items
    | some (k, v) => dictFold sep rest (pyInsert items k v)

/-! ## Definitions for the ordered-list claim (C1)

`flatB`/`flatBody`/`flatItems` flatten a tree in document (preorder) order,
collecting each block's `(number, head)` pair followed by the pairs of the
items of the nested `ListBlock`s in its body. -/

mutual
def flatB : Blk → List (Option Str × Option Str)
  | .mk n h body => (n, h) :: flatBody body

def flatBody : List CNode → List (Option Str × Option Str)
  | [] => []
  | .text _ :: t => flatBody t
  | .blk _ :: t => flatBody t
  | .dct _ :: t => flatBody t
  | .lst l :: t => flatL l ++ flatBody t

def flatL : LBlk → List (Option Str × Option Str)
  | .mk items => flatItems items

def flatItems : List Blk → List (Option Str × Option Str)
  | [] => []
  | b :: t => flatB b ++ flatItems t
end

/-- The pairs still held by the open-ancestor stack, bottom-up (the top of
the stack contributes last, since its pair comes after its ancestors' in
document order). -/
def flatStack : List (Str × Blk) → List (Option Str × Option Str)
  | [] => []
  | (_, b) :: t => flatStack t ++ flatB b

/-! ## Definitions for the error classification (C4, C5) -/

/-- The parse-error messages the parser can produce: the three premature
end-of-input messages, the mid-content head message, and the expected-tag
messages for the four tag names the parser ever expects. -/
def msgOK (m : Str) : Prop :=
  m = str "Unexpected head tag in content" ∨
  m = str "Unexpected EOF in head tag" ∨
  m = str "Unexpected EOF in dict tag" ∨
  m = str "Unexpected EOF in list tag" ∨
  ∃ (name : Str) (closing : Bool), m = expectedMsg name closing ∧
    (name = str "head" ∨ name = str "block" ∨ name = str "dict" ∨
      name = str "list")

/-- Every error the embedded parser can produce: fuel exhaustion (an
artefact of the embedding), the `ValueError` of an empty dict separator, or
a `ParseError` with one of the five message shapes. -/
def errOK (e : PErr) : Prop :=
  e = .outOfFuel ∨ e = .valueError (str "empty separator") ∨
  ∃ m l c, e = .parseError m l c ∧ msgOK m

/-- The conjunction of the classification statements for every
recursive-descent routine, at one fuel value. -/
def ClassAll (f : Nat) : Prop :=
  (∀ ts e, parseTokens f ts = .error e → errOK e) ∧
  (∀ u buf acc ts e, parseContent f u buf acc ts = .error e → errOK e) ∧
  (∀ ts e, parseHead f ts = .error e → errOK e) ∧
  (∀ buf ts e, headGo f buf ts = .error e → errOK e) ∧
  (∀ ts e, parseBlock f ts = .error e → errOK e) ∧
  (∀ ts e, parseDict f ts = .error e → errOK e) ∧
  (∀ sep cl ls ts e, dictGo f sep cl ls ts = .error e → errOK e) ∧
  (∀ ts e, parseList f ts = .error e → errOK e) ∧
  (∀ kind parts ts e, listGo f kind parts ts = .error e → errOK e) ∧
  (∀ ls kind e, processListLines f ls kind = .error e → errOK e) ∧
  (∀ ls root stack e, ordGo f ls root stack = .error e → errOK e)

/-! ## Definitions for the number invariant (C8)

The predicates below check that every Block in body position (the root, a
parsed `block` tag, or any block nested in a body) has `number = none`;
items of a `ListBlock` are exempt from the number check (the ordered-list
algorithm numbers them) but their bodies are checked recursively. -/

mutual
def nodeUnnum : CNode → Bool
  | .text _ => true
  | .dct _ => true
  | .blk b => blkUnnum b
  | .lst l => lstUnnum l

def blkUnnum : Blk → Bool
  | .mk n _ body => n.isNone && bodyUnnum body

def bodyUnnum : List CNode → Bool
  | [] => true
  | x :: t => nodeUnnum x && bodyUnnum t

def lstUnnum : LBlk → Bool
  | .mk items => itemsUnnum items

def itemsUnnum : List Blk → Bool
  | [] => true
  | .mk _ _ body :: t => bodyUnnum body && itemsUnnum t
end

/-- Goodness of the ordered-list stack: every open item's body is good. -/
def stackUnnum : List (Str × Blk) → Bool
  | [] => true
  | (_, b) :: t => bodyUnnum b.body && stackUnnum t

/-- The conjunction of the number-invariant statements for every
tree-producing routine, at one fuel value: blocks produced in body
position carry `number = none`, and list items (whatever their numbers)
have good bodies. -/
def GoodAll (f : Nat) : Prop :=
  (∀ ts root, parseTokens f ts = .ok root →
    root.number = none ∧ blkUnnum root = true) ∧
  (∀ u buf acc ts r, bodyUnnum acc = true →
    parseContent f u buf acc ts = .ok r → bodyUnnum r.1 = true) ∧
  (∀ ts r, parseBlock f ts = .ok r →
    r.1.number = none ∧ blkUnnum r.1 = true) ∧
  (∀ ts r, parseList f ts = .ok r → itemsUnnum r.1.items = true) ∧
  (∀ kind parts ts r, listGo f kind parts ts = .ok r →
    itemsUnnum r.1.items = true) ∧
  (∀ ls kind lb, processListLines f ls kind = .ok lb →
    itemsUnnum lb.items = true) ∧
  (∀ ls root stack lb, itemsUnnum root = true → stackUnnum stack = true →
    ordGo f ls root stack = .ok lb → itemsUnnum lb.items = true)

/-! Side conditions for the paragraph-break statement of claim C2, written
from the spec's words: a clean paragraph is non-empty, contains no newline,
and neither starts nor ends with whitespace. -/

/-- No newline anywhere in the string. -/
def noNl (l : Str) : Bool := l.all (fun c => decide (c ≠ '\n'))

/-- The first character, if any, is not whitespace. -/
def headNotWs (l : Str) : Bool :=
  match l with
  | [] => true
  | c :: _ => !isPySpace c

/-- A clean paragraph: non-empty, newline-free, no whitespace at either
end. -/
def cleanPiece (l : Str) : Bool :=
  decide (l ≠ []) && noNl l && headNotWs l && headNotWs l.reverse

@[simp] theorem Blk.number_mk (n h : Option Str) (b : List CNode) :
    (Blk.mk n h b).number = n := rfl

@[simp] theorem Blk.head_mk (n h : Option Str) (b : List CNode) :
    (Blk.mk n h b).head = h := rfl

@[simp] theorem Blk.body_mk (n h : Option Str) (b : List CNode) :
    (Blk.mk n h b).body = b := rfl

@[simp] theorem LBlk_items_mk (is : List Blk) : (LBlk.mk is).items = is := rfl

@[simp] theorem Dct_items_mk (is : List (Str × Str)) :
    (Dct.mk is).items = is := rfl

/-! ## Paragraph-splitting lemmas (claim C2) -/

theorem splitNN_ne_nil (fuel : Nat) (l : Str) : splitNN fuel l ≠ [] := by
  cases fuel with
  | zero => simp [splitNN]
  | succ f =>
    unfold splitNN
    split
    · simp
    · split
      · simp
      · split <;> simp

theorem isPrefixOf_nn_length {l : Str}
    (h : (['\n', '\n'] : Str).isPrefixOf l = true) : 2 ≤ l.length := by
  have := List.isPrefixOf_iff_prefix.mp h
  simpa using this.length_le

theorem splitNN_fuel_irrel :
    ∀ (f1 : Nat) (l : Str) (f2 : Nat), l.length < f1 → l.length < f2 →
      splitNN f1 l = splitNN f2 l := by
  intro f1
  induction f1 with
  | zero => intro l f2 h1; omega
  | succ g ih =>
    intro l f2 h1 h2
    cases f2 with
    | zero => omega
    | succ h =>
      unfold splitNN
      split
      · next hpre =>
        have hlen := isPrefixOf_nn_length hpre
        rw [ih (l.drop 2) h (by simp; omega) (by simp; omega)]
      · cases l with
        | nil => rfl
        | cons c t =>
          have heq := ih t h (by simp at h1 ⊢; omega) (by simp at h2 ⊢; omega)
          simp [heq]

theorem splitNN_nonl :
    ∀ (b : Str) (fuel : Nat), noNl b = true → b.length < fuel →
      splitNN fuel b = [b] := by
  intro b
  induction b with
  | nil =>
    intro fuel _ hf
    cases fuel with
    | zero => omega
    | succ f => rfl
  | cons c t ih =>
    intro fuel hn hf
    simp only [noNl, List.all_cons, Bool.and_eq_true, decide_eq_true_eq] at hn
    cases fuel with
    | zero => omega
    | succ f =>
      unfold splitNN
      split
      · next hpre =>
        exfalso
        obtain ⟨r, hr⟩ := List.isPrefixOf_iff_prefix.mp hpre
        simp at hr
        exact hn.1 hr.1.symm
      · have heq := ih f (by simpa [noNl] using hn.2) (by simp at hf; omega)
        simp [heq]

theorem splitNN_prefix_nonl :
    ∀ (a : Str) (rest : Str) (fuel : Nat) (h : Str) (t : List Str),
      noNl a = true → (a ++ rest).length < fuel →
      splitNN fuel rest = h :: t →
      splitNN fuel (a ++ rest) = (a ++ h) :: t := by
  intro a
  induction a with
  | nil =>
    intro rest fuel h t _ _ hs
    simpa using hs
  | cons c a2 ih =>
    intro rest fuel h t hn hf hs
    simp only [noNl, List.all_cons, Bool.and_eq_true, decide_eq_true_eq] at hn
    cases fuel with
    | zero => simp at hf
    | succ f =>
      have hrlen : rest.length < f := by simp at hf; omega
      have hs2 : splitNN f rest = h :: t := by
        rw [splitNN_fuel_irrel f rest (f + 1) hrlen (by omega)]
        exact hs
      have hih := ih rest f h t (by simpa [noNl] using hn.2)
        (by simp at hf ⊢; omega) hs2
      show splitNN (f + 1) (c :: (a2 ++ rest)) = _
      unfold splitNN
      split
      · next hpre =>
        exfalso
        obtain ⟨r, hr⟩ := List.isPrefixOf_iff_prefix.mp hpre
        simp at hr
        exact hn.1 hr.1.symm
      · simp [hih]

theorem splitNN_run :
    ∀ (k : Nat) (b : Str) (fuel : Nat), noNl b = true →
      (List.replicate k '\n' ++ b).length < fuel →
      splitNN fuel (List.replicate k '\n' ++ b) =
        List.replicate (k / 2) [] ++
          [List.replicate (k % 2) '\n' ++ b] := by
  intro k
  induction k using Nat.strong_induction_on with
  | _ k ih =>
    match k with
    | 0 =>
      intro b fuel hn hf
      simp only [List.replicate_zero, List.nil_append, Nat.zero_div,
        Nat.zero_mod]
      exact splitNN_nonl b fuel hn (by simpa using hf)
    | 1 =>
      intro b fuel hn hf
      simp only [List.replicate_one, List.singleton_append] at hf ⊢
      cases fuel with
      | zero => simp at hf
      | succ f =>
        unfold splitNN
        split
        · next hpre =>
          exfalso
          obtain ⟨r, hr⟩ := List.isPrefixOf_iff_prefix.mp hpre
          cases b with
          | nil => simp at hr
          | cons c t =>
            simp at hr
            simp only [noNl, List.all_cons, Bool.and_eq_true,
              decide_eq_true_eq] at hn
            exact hn.1 hr.1.symm
        · have heq := splitNN_nonl b f hn (by simp at hf; omega)
          simp [heq]
    | k + 2 =>
      intro b fuel hn hf
      have hstep : List.replicate (k + 2) '\n' ++ b =
          '\n' :: '\n' :: (List.replicate k '\n' ++ b) := by
        simp [List.replicate_succ]
      rw [hstep] at hf ⊢
      cases fuel with
      | zero => simp at hf
      | succ f =>
        unfold splitNN
        split
        · have hrec := ih k (by omega) b f hn (by simp at hf ⊢; omega)
          have hdrop : (('\n' : Char) :: '\n' ::
              (List.replicate k '\n' ++ b)).drop 2 =
              List.replicate k '\n' ++ b := rfl
          rw [hdrop, hrec]
          have h2 : (k + 2) / 2 = k / 2 + 1 := by omega
          have h3 : (k + 2) % 2 = k % 2 := by omega
          rw [h2, h3, List.replicate_succ]
          simp
        · next hpre =>
          exfalso
          apply hpre
          simp [List.isPrefixOf]

theorem dropWhile_headNotWs (l : Str) (h : headNotWs l = true) :
    l.dropWhile isPySpace = l := by
  cases l with
  | nil => rfl
  | cons c t =>
    simp only [headNotWs, Bool.not_eq_true'] at h
    simp [List.dropWhile_cons, h]

theorem pyStrip_eq_self (l : Str) (h1 : headNotWs l = true)
    (h2 : headNotWs l.reverse = true) : pyStrip l = l := by
  unfold pyStrip
  rw [dropWhile_headNotWs l h1, dropWhile_headNotWs l.reverse h2,
    List.reverse_reverse]

theorem dropWhile_replicate_nl (m : Nat) (b : Str) :
    (List.replicate m '\n' ++ b).dropWhile isPySpace =
      b.dropWhile isPySpace := by
  induction m with
  | zero => simp
  | succ n ih =>
    simp only [List.replicate_succ, List.cons_append, List.dropWhile_cons]
    rw [if_pos (by rfl)]
    exact ih

theorem pyStrip_nl_prefix (m : Nat) (b : Str) (h1 : headNotWs b = true)
    (h2 : headNotWs b.reverse = true) :
    pyStrip (List.replicate m '\n' ++ b) = b := by
  unfold pyStrip
  rw [dropWhile_replicate_nl, dropWhile_headNotWs b h1,
    dropWhile_headNotWs b.reverse h2, List.reverse_reverse]

theorem filter_ne_nil_replicate (n : Nat) :
    (List.replicate n ([] : Str)).filter (fun p => p ≠ []) = [] := by
  induction n with
  | zero => rfl
  | succ m ih => simp [List.replicate_succ, List.filter_cons, ih]

theorem headNotWs_append_left (a x : Str) (h : a ≠ []) :
    headNotWs (a ++ x) = headNotWs a := by
  cases a with
  | nil => exact absurd rfl h
  | cons c t => rfl

/-! ## Claim C9: determinism of parsing -/

/-- Claim C9: parsing is deterministic — two runs of the top-level parse on
identical text (and identical fuel) produce the same outcome: both the
raised error or both the same tree, node for node (the embedded parse is a
pure function of the input text, so outcome equality is definitional). -/
theorem C9_parse_deterministic (fuel : Nat) (text : Str)
    (r1 r2 : Except PErr Blk)
    (h1 : pyParse fuel text = r1) (h2 : pyParse fuel text = r2) : r1 = r2 :=
  h1.symm.trans h2

/-- Witness for C9 at a concrete input. -/
theorem C9_parse_deterministic_witness :
    pyParse 50 (str "x") = pyParse 50 (str "x") :=
  C9_parse_deterministic 50 (str "x") _ _ rfl rfl

/-! ## Claim C10: lone carriage returns -/

/-- Claim C10: a `\r` not followed by `\n` is read as a newline token with
canonical value `"\n"`, but the cursor advance does not increment the line
counter for the `\r` character — it increments the column instead — so the
tokens after a lone `\r` carry the same line number as those before it
(concretely, all four tokens of `"a\rb"` are on line 1). -/
theorem C10_lone_cr_same_line :
    (∀ (st : TokState) (rest : Str), st.rem = '\r' :: rest →
      rest.head? ≠ some '\n' →
      readNewline st =
        (⟨.newline, ['\n'], st.line, st.column, none, none⟩,
         ⟨rest, st.line, st.column + 1⟩)) ∧
    tokenize (str "a\rb") =
      .ok [⟨.text, ['a'], 1, 1, none, none⟩,
           ⟨.newline, ['\n'], 1, 2, none, none⟩,
           ⟨.text, ['b'], 1, 3, none, none⟩,
           ⟨.eof, [], 1, 4, none, none⟩] := by
  constructor
  · rintro ⟨rem, line, col⟩ rest hrem hnl
    simp only at hrem
    subst hrem
    cases rest with
    | nil => rfl
    | cons c t =>
      have hc : c ≠ '\n' := by simpa using hnl
      simp only [readNewline]
      split
      · next heq =>
        injection heq with h1 h2
        injection h2 with h3 h4
        exact absurd h3 hc
      · simp [advanceN, advance1]
  · rfl

/-- Witness for C10's general statement at a concrete cursor. -/
theorem C10_lone_cr_same_line_witness :
    (['x'].head? ≠ some '\n') ∧
    readNewline ⟨['\r', 'x'], 7, 3⟩ =
      (⟨.newline, ['\n'], 7, 3, none, none⟩, ⟨['x'], 7, 4⟩) :=
  ⟨by decide, C10_lone_cr_same_line.1 ⟨['\r', 'x'], 7, 3⟩ ['x'] rfl (by decide)⟩

/-! ## Claim C2: the text-flush rule -/

/-- Claim C2: flushing buffered text strips the concatenated buffer; a
whitespace-only buffer appends no nodes; otherwise the text is split at
blank-line boundaries (two, three or four consecutive newlines all act as a
single paragraph break) and each non-empty trimmed paragraph is appended as
a separate text node in order — in general, for every run of k ≥ 2 newlines
between two clean paragraphs the flush yields exactly those two paragraphs
as separate text nodes; in particular parsing
`"Line 1\nLine 2\n\nLine 3"` yields exactly the two text nodes
`"Line 1\nLine 2"` and `"Line 3"`, with the single newline preserved. -/
theorem C2_flush_rule :
    (∀ (buf : List Str) (acc : List CNode),
      pyStrip (strJoin buf) = [] → flushText buf acc = acc) ∧
    (∀ (k : Nat) (a b : Str), 2 ≤ k → cleanPiece a = true →
      cleanPiece b = true →
      flushText [a ++ (List.replicate k '\n' ++ b)] [] =
        [.text a, .text b]) ∧
    pyParse 100 (str "Line 1\nLine 2\n\nLine 3") =
      .ok ⟨none, none, [.text (str "Line 1\nLine 2"), .text (str "Line 3")]⟩ ∧
    flushText [str "a\n\nb"] [] = [.text (str "a"), .text (str "b")] ∧
    flushText [str "a\n\n\nb"] [] = [.text (str "a"), .text (str "b")] ∧
    flushText [str "a\n\n\n\nb"] [] = [.text (str "a"), .text (str "b")] ∧
    flushText [str " \t ", ['\n'], str "  "] [.text (str "kept")] =
      [.text (str "kept")] := by
  refine ⟨?_, ?_, rfl, rfl, rfl, rfl, rfl⟩
  · intro buf acc h
    simp [flushText, h]
  · intro k a b hk ha hb
    simp only [cleanPiece, Bool.and_eq_true] at ha hb
    obtain ⟨⟨⟨ha0, haN⟩, haH⟩, haT⟩ := ha
    obtain ⟨⟨⟨hb0, hbN⟩, hbH⟩, hbT⟩ := hb
    have ha0' : a ≠ [] := by simpa using ha0
    have hb0' : b ≠ [] := by simpa using hb0
    have hjoin : strJoin [a ++ (List.replicate k '\n' ++ b)] =
        a ++ (List.replicate k '\n' ++ b) := by
      simp [strJoin]
    have hheadl : headNotWs (a ++ (List.replicate k '\n' ++ b)) = true := by
      rw [headNotWs_append_left a _ ha0']
      exact haH
    have htaill :
        headNotWs (a ++ (List.replicate k '\n' ++ b)).reverse = true := by
      rw [List.reverse_append, List.reverse_append,
        List.append_assoc, headNotWs_append_left b.reverse _ (by simpa using hb0')]
      exact hbT
    have hstrip : pyStrip (a ++ (List.replicate k '\n' ++ b)) =
        a ++ (List.replicate k '\n' ++ b) :=
      pyStrip_eq_self _ hheadl htaill
    have hne : a ++ (List.replicate k '\n' ++ b) ≠ [] := by
      cases a with
      | nil => exact absurd rfl ha0'
      | cons c t => simp
    have hrun := splitNN_run k b
      ((a ++ (List.replicate k '\n' ++ b)).length + 1) hbN
      (by simp; omega)
    have hk2 : k / 2 = (k / 2 - 1) + 1 := by omega
    rw [hk2, List.replicate_succ, List.cons_append] at hrun
    have hsplit := splitNN_prefix_nonl a (List.replicate k '\n' ++ b)
      ((a ++ (List.replicate k '\n' ++ b)).length + 1) _ _ haN
      (by omega) hrun
    rw [List.append_nil] at hsplit
    have h1 : pyStrip a = a := pyStrip_eq_self a haH haT
    have h2 : pyStrip (List.replicate (k % 2) '\n' ++ b) = b :=
      pyStrip_nl_prefix _ b hbH hbT
    simp only [flushText, hjoin, hstrip, if_neg hne, hsplit,
      List.map_cons, List.map_append, List.map_replicate, h1, h2,
      List.filter_cons, List.filter_append]
    rw [if_neg (by simp)]
    simp [filter_ne_nil_replicate, List.filter_cons, ha0', hb0']
    intro _
    rfl

/-- Witness for C2's hypothesized conjuncts: the whitespace-only-buffer rule
at a concrete buffer, and the paragraph-break rule at k = 3, a = "ab",
b = "cd". -/
theorem C2_flush_rule_witness :
    (pyStrip (strJoin [str "  ", ['\n']]) = [] ∧
     flushText [str "  ", ['\n']] [.text ['z']] = [.text ['z']]) ∧
    (2 ≤ 3 ∧ cleanPiece (str "ab") = true ∧ cleanPiece (str "cd") = true ∧
     flushText [str "ab" ++ (List.replicate 3 '\n' ++ str "cd")] [] =
       [.text (str "ab"), .text (str "cd")]) :=
  ⟨⟨rfl, C2_flush_rule.1 [str "  ", ['\n']] [.text ['z']] rfl⟩,
   by decide, by decide, by decide,
   C2_flush_rule.2.1 3 (str "ab") (str "cd") (by decide) (by decide)
     (by decide)⟩

/-! ## Claim C6: the unordered-list bullet marker -/

/-- Claim C6 (code bug): the bullet-marker literal in
`Parser._process_unordered_list` is the mojibake three-character sequence
`â€¢` (the UTF-8 bytes of `•` decoded as Latin-1), not the bullet `•` used
by the repository's own test `test_unordered_list`; on the test's input
every bullet line fails the marker check, no item is ever opened, and the
resulting list has zero items (the test asserts three).  Moreover even for
a line carrying the code's own marker, `line.strip()[2:]` drops only two of
the four marker characters, so the item head keeps a stray `"¢ "` prefix
instead of being the trimmed text after the marker. -/
theorem C6_bullet_marker_mojibake :
    pyParse 100 (str "<list kind=\"*\">\n• First item\n• Second\n</list>") =
      .ok ⟨none, none, [.lst ⟨[]⟩]⟩ ∧
    processUnorderedList
      [str "• First item", str "• Second item", str "o Sub item",
       str "• Third item"] = ⟨[]⟩ ∧
    processUnorderedList [str "â€¢ X"] = ⟨[⟨none, some (str "¢ X"), []⟩]⟩ ∧
    processUnorderedList [str "â€¢ First", str "o Sub", str "plain"] =
      ⟨[⟨none, some (str "¢ First"),
        [.lst ⟨[⟨none, some (str "Sub"), []⟩]⟩, .text (str "plain")]⟩]⟩ :=
  ⟨rfl, rfl, rfl, rfl⟩

/-! ## Dictionary lemmas and claims C3 and C7 -/

theorem dictEntries_eq_dictFold (sep : Str) (hsep : sep ≠ []) :
    ∀ (lines : List Str) (items : List (Str × Str)),
      dictEntries sep lines items = .ok (dictFold sep lines items) := by
  intro lines
  induction lines with
  | nil => intro items; rfl
  | cons line rest ih =>
    intro items
    by_cases h0 : line = []
    · simp [dictEntries, dictFold, dictLineEntry, h0, ih]
    · by_cases h1 : isSubstr sep line
      · simp [dictEntries, dictFold, dictLineEntry, h0, h1, hsep, ih]
      · simp [dictEntries, dictFold, dictLineEntry, h0, h1, ih]

theorem pyLookup_pyInsert (items : List (Str × Str)) (k v : Str) (k2 : Str) :
    pyLookup (pyInsert items k v) k2 =
      if k2 = k then some v else pyLookup items k2 := by
  induction items with
  | nil =>
    by_cases h : k2 = k
    · subst h; simp [pyInsert, pyLookup, List.find?]
    · simp [pyInsert, pyLookup, List.find?, h, Ne.symm h]
  | cons p t ih =>
    obtain ⟨k0, v0⟩ := p
    by_cases h0 : k0 = k
    · subst h0
      by_cases h : k2 = k0
      · subst h; simp [pyInsert, pyLookup, List.find?]
      · simp [pyInsert, pyLookup, List.find?, h, Ne.symm h]
    · by_cases h : k2 = k0
      · subst h
        simp [pyInsert, pyLookup, List.find?, h0]
      · have hd : decide (k0 = k2) = false := by
          simp [Ne.symm h]
        simp only [pyInsert, if_neg h0, pyLookup, List.find?, hd]
        simpa [pyLookup] using ih

/-- The value found for key `k` after processing `lines`: the last line
producing that key wins, falling back to the initial items. -/
theorem dictFold_lookup (sep : Str) :
    ∀ (lines : List Str) (items : List (Str × Str)) (k : Str),
      pyLookup (dictFold sep lines items) k =
        (((lines.filterMap (dictLineEntry sep)).reverse.find?
            (fun p => decide (p.1 = k))).map (fun p => p.2)).or
          (pyLookup items k) := by
  intro lines
  induction lines with
  | nil => intro items k; simp [dictFold]
  | cons line rest ih =>
    intro items k
    match he : dictLineEntry sep line with
    | none => simp [dictFold, he, ih]
    | some (k0, v0) =>
      simp only [dictFold, he, List.filterMap_cons, List.reverse_cons,
        List.find?_append, ih, pyLookup_pyInsert]
      by_cases hk : k = k0
      · subst hk
        simp [List.find?]
        cases (List.find? (fun p => decide (p.1 = k))
            (List.filterMap (dictLineEntry sep) rest).reverse) <;>
          simp [Option.or]
      · simp [List.find?, Ne.symm hk]
        cases (List.find? (fun p => decide (p.1 = k))
            (List.filterMap (dictLineEntry sep) rest).reverse) <;>
          simp [Option.or, hk]

theorem pyInsert_keys (items : List (Str × Str)) (k v : Str) :
    (pyInsert items k v).map Prod.fst =
      if k ∈ items.map Prod.fst then items.map Prod.fst
      else items.map Prod.fst ++ [k] := by
  induction items with
  | nil => simp [pyInsert]
  | cons p t ih =>
    obtain ⟨k0, v0⟩ := p
    by_cases h0 : k0 = k
    · subst h0; simp [pyInsert]
    · by_cases hm : k ∈ t.map Prod.fst
      · simp [pyInsert, h0, ih, hm, List.mem_cons, Ne.symm h0]
      · simp [pyInsert, h0, ih, hm, List.mem_cons, Ne.symm h0]

theorem pyInsert_length (items : List (Str × Str)) (k v : Str) :
    (pyInsert items k v).length =
      if k ∈ items.map Prod.fst then items.length
      else items.length + 1 := by
  induction items with
  | nil => simp [pyInsert]
  | cons p t ih =>
    obtain ⟨k0, v0⟩ := p
    by_cases h0 : k0 = k
    · subst h0; simp [pyInsert]
    · by_cases hm : k ∈ t.map Prod.fst
      · simp [pyInsert, h0, ih, hm, List.mem_cons, Ne.symm h0]
      · simp [pyInsert, h0, ih, hm, List.mem_cons, Ne.symm h0]

theorem pyInsert_keys_toFinset (items : List (Str × Str)) (k v : Str) :
    ((pyInsert items k v).map Prod.fst).toFinset =
      insert k (items.map Prod.fst).toFinset := by
  by_cases hm : k ∈ items.map Prod.fst
  · rw [pyInsert_keys, if_pos hm]
    exact (Finset.insert_eq_self.mpr (List.mem_toFinset.mpr hm)).symm
  · rw [pyInsert_keys, if_neg hm, List.toFinset_append]
    simp [Finset.insert_eq, Finset.union_comm]

theorem pyInsert_card (items : List (Str × Str)) (k v : Str)
    (h : items.length = ((items.map Prod.fst).toFinset).card) :
    (pyInsert items k v).length =
      (((pyInsert items k v).map Prod.fst).toFinset).card := by
  by_cases hm : k ∈ items.map Prod.fst
  · rw [pyInsert_length, if_pos hm, pyInsert_keys_toFinset,
      Finset.insert_eq_self.mpr (List.mem_toFinset.mpr hm), h]
  · rw [pyInsert_length, if_neg hm, pyInsert_keys_toFinset,
      Finset.card_insert_of_not_mem (by simpa using hm), h]

/-- The key set of the processed dictionary is the initial key set plus the
keys of the produced line entries, and (starting from a state whose size is
its number of distinct keys) the number of entries is the number of
distinct keys. -/
theorem dictFold_toFinset_card (sep : Str) :
    ∀ (lines : List Str) (items : List (Str × Str)),
      (((dictFold sep lines items).map Prod.fst).toFinset =
        (items.map Prod.fst).toFinset ∪
          ((lines.filterMap (dictLineEntry sep)).map Prod.fst).toFinset) ∧
      (items.length = ((items.map Prod.fst).toFinset).card →
        (dictFold sep lines items).length =
          (((dictFold sep lines items).map Prod.fst).toFinset).card) := by
  intro lines
  induction lines with
  | nil => intro items; simp [dictFold]
  | cons line rest ih =>
    intro items
    match he : dictLineEntry sep line with
    | none =>
      simpa [dictFold, he, List.filterMap_cons] using ih items
    | some kv =>
      obtain ⟨k0, v0⟩ := kv
      constructor
      · have h1 := (ih (pyInsert items k0 v0)).1
        simp only [dictFold, he, List.filterMap_cons]
        rw [h1, pyInsert_keys_toFinset]
        simp [Finset.insert_union, Finset.union_insert]
      · intro h
        have h2 := (ih (pyInsert items k0 v0)).2 (pyInsert_card items k0 v0 h)
        simpa [dictFold, he] using h2

/-- Claim C3: dictionary regions use separator `":"` by default, overridden
by the `sep` attribute; lines split at the first separator occurrence with
both sides trimmed; a line with no occurrence becomes a key with empty
value; the final partial line before the closing tag is included; and when
two lines produce the same key, the later line's value overwrites the
earlier one (stated in general: looking up any key in the resulting
dictionary finds the value of the last line producing that key). -/
theorem C3_dict_region :
    pyParse 100 (str "<dict>\nK: V\n</dict>") =
      .ok ⟨none, none, [.dct ⟨[(str "K", str "V")]⟩]⟩ ∧
    pyParse 100 (str "<dict sep=\"-\">\nK - V:x\n</dict>") =
      .ok ⟨none, none, [.dct ⟨[(str "K", str "V:x")]⟩]⟩ ∧
    pyParse 100 (str "<dict>\na:b:c\n</dict>") =
      .ok ⟨none, none, [.dct ⟨[(str "a", str "b:c")]⟩]⟩ ∧
    pyParse 100 (str "<dict>\nK\n</dict>") =
      .ok ⟨none, none, [.dct ⟨[(str "K", [])]⟩]⟩ ∧
    pyParse 100 (str "<dict>\nA: 1</dict>") =
      .ok ⟨none, none, [.dct ⟨[(str "A", str "1")]⟩]⟩ ∧
    (∀ (sep : Str) (lines : List Str) (k : Str), sep ≠ [] →
      dictEntries sep lines [] = .ok (dictFold sep lines []) ∧
      pyLookup (dictFold sep lines []) k =
        ((lines.filterMap (dictLineEntry sep)).reverse.find?
            (fun p => decide (p.1 = k))).map (fun p => p.2)) := by
  refine ⟨rfl, rfl, rfl, rfl, rfl, ?_⟩
  intro sep lines k hsep
  refine ⟨dictEntries_eq_dictFold sep hsep lines [], ?_⟩
  rw [dictFold_lookup]
  simp [pyLookup]

/-- Witness for C3's general last-write-wins statement: two lines with the
same key `"a"`; the lookup finds the second line's value. -/
theorem C3_dict_region_witness :
    ((str ":") ≠ ([] : Str)) ∧
    (dictEntries (str ":") [str "a: 1", str "a: 2"] [] =
        .ok (dictFold (str ":") [str "a: 1", str "a: 2"] []) ∧
      pyLookup (dictFold (str ":") [str "a: 1", str "a: 2"] []) ['a'] =
        (([str "a: 1", str "a: 2"].filterMap
            (dictLineEntry (str ":"))).reverse.find?
            (fun p => decide (p.1 = ['a']))).map (fun p => p.2)) :=
  ⟨by decide,
   C3_dict_region.2.2.2.2.2 (str ":") [str "a: 1", str "a: 2"] ['a']
     (by decide)⟩

/-- Claim C7 counterexample: the region `"<dict>\nK: 1\nK: 2\n</dict>"`
contains two lines, but the resulting dictionary has exactly one entry
(`K ↦ 2`): the number of entries is not the number of lines. -/
theorem C7_entry_per_line_cex :
    pyParse 100 (str "<dict>\nK: 1\nK: 2\n</dict>") =
      .ok ⟨none, none, [.dct ⟨[(str "K", str "2")]⟩]⟩ ∧
    (Dct.mk [(str "K", str "2")]).items.length = 1 :=
  ⟨rfl, rfl⟩

/-- Claim C7 as amended: for every dict region (with a non-empty
separator), every non-empty line produces an entry — blank lines produce
none and later duplicate keys overwrite — so the key set of the dictionary
is exactly the key set of the per-line entries, and the number of entries
is the number of DISTINCT keys among them (not the number of lines). -/
theorem C7_entries_are_distinct_keys (sep : Str) (lines : List Str)
    (hsep : sep ≠ []) :
    dictEntries sep lines [] = .ok (dictFold sep lines []) ∧
    ((dictFold sep lines []).map Prod.fst).toFinset =
      ((lines.filterMap (dictLineEntry sep)).map Prod.fst).toFinset ∧
    (dictFold sep lines []).length =
      ((lines.filterMap (dictLineEntry sep)).map Prod.fst).toFinset.card := by
  refine ⟨dictEntries_eq_dictFold sep hsep lines [], ?_, ?_⟩
  · have h1 := (dictFold_toFinset_card sep lines []).1
    simpa using h1
  · have h2 := (dictFold_toFinset_card sep lines []).2 (by simp)
    rw [h2]
    have h1 := (dictFold_toFinset_card sep lines []).1
    simp only [h1]
    simp

/-- Witness for C7's amended statement: three lines, one a duplicate key,
two distinct keys, hence two entries. -/
theorem C7_entries_are_distinct_keys_witness :
    ((str ":") ≠ ([] : Str)) ∧
    (dictEntries (str ":") [str "K: 1", str "K: 2", str "J: 3"] [] =
        .ok (dictFold (str ":") [str "K: 1", str "K: 2", str "J: 3"] []) ∧
      ((dictFold (str ":") [str "K: 1", str "K: 2", str "J: 3"] []).map
          Prod.fst).toFinset =
        (([str "K: 1", str "K: 2", str "J: 3"].filterMap
            (dictLineEntry (str ":"))).map Prod.fst).toFinset ∧
      (dictFold (str ":") [str "K: 1", str "K: 2", str "J: 3"] []).length =
        (([str "K: 1", str "K: 2", str "J: 3"].filterMap
            (dictLineEntry (str ":"))).map Prod.fst).toFinset.card) :=
  ⟨by decide,
   C7_entries_are_distinct_keys (str ":")
     [str "K: 1", str "K: 2", str "J: 3"] (by decide)⟩

/-! ## Ordered-list flattening lemmas and claim C1 -/

theorem flatBody_append (a b : List CNode) :
    flatBody (a ++ b) = flatBody a ++ flatBody b := by
  induction a with
  | nil => simp [flatBody]
  | cons x t ih => cases x <;> simp [flatBody, ih]

theorem flatItems_append (a b : List Blk) :
    flatItems (a ++ b) = flatItems a ++ flatItems b := by
  induction a with
  | nil => simp [flatItems]
  | cons x t ih => simp [flatItems, ih]

/-- Attaching a closed item appends its flattened pairs at the very end of
the parent's flattened pairs. -/
theorem flatB_attachChild (p c : Blk) :
    flatB (attachChild p c) = flatB p ++ flatB c := by
  obtain ⟨n, h, body⟩ := p
  match hl : body.getLast? with
  | none =>
    have hb : body = [] := List.getLast?_eq_none_iff.mp hl
    subst hb
    simp [attachChild, Blk.body, hl, flatB, flatBody, flatL, flatItems]
  | some x =>
    have hne : body ≠ [] := by
      cases body with
      | nil => simp [List.getLast?] at hl
      | cons y t => simp
    have hx : body.getLast hne = x := by
      rw [List.getLast?_eq_getLast _ hne] at hl
      exact (Option.some.injEq _ _ ▸ hl)
    have hbody : body.dropLast ++ [x] = body := by
      rw [← hx]; exact List.dropLast_append_getLast hne
    cases x with
    | lst lb =>
      obtain ⟨items⟩ := lb
      simp only [attachChild, Blk.body, hl]
      rw [flatB, flatB, ← hbody, flatBody_append, flatBody_append]
      simp [flatBody, flatL, flatItems_append, flatItems, flatB]
    | text s =>
      simp only [attachChild, Blk.body, hl]
      rw [flatB, flatB, flatBody_append]
      simp [flatBody, flatL, flatItems]
    | blk b2 =>
      simp only [attachChild, Blk.body, hl]
      rw [flatB, flatB, flatBody_append]
      simp [flatBody, flatL, flatItems]
    | dct d =>
      simp only [attachChild, Blk.body, hl]
      rw [flatB, flatB, flatBody_append]
      simp [flatBody, flatL, flatItems]

theorem popWhileGo_flat (level : Nat) :
    ∀ (stack : List (Str × Blk)) (root : List Blk) (pending : Blk),
      flatItems (popWhileGo level root pending stack).1 ++
        flatStack (popWhileGo level root pending stack).2 =
      flatItems root ++ flatStack stack ++ flatB pending := by
  intro stack
  induction stack with
  | nil =>
    intro root pending
    simp [popWhileGo, flatStack, flatItems_append, flatItems]
  | cons e t ih =>
    intro root pending
    obtain ⟨n2, p⟩ := e
    by_cases hc : level ≤ n2.count '.'
    · simp only [popWhileGo, if_pos hc]
      rw [ih, flatB_attachChild]
      simp [flatStack]
    · simp only [popWhileGo, if_neg hc]
      rw [flatStack, flatStack, flatB_attachChild]
      simp

theorem popWhile_flat (level : Nat) (root : List Blk)
    (stack : List (Str × Blk)) :
    flatItems (popWhile level root stack).1 ++
      flatStack (popWhile level root stack).2 =
    flatItems root ++ flatStack stack := by
  cases stack with
  | nil => simp [popWhile]
  | cons e t =>
    obtain ⟨n, b⟩ := e
    by_cases hc : level ≤ n.count '.'
    · simp only [popWhile, if_pos hc]
      rw [popWhileGo_flat]
      simp [flatStack]
    · simp only [popWhile, if_neg hc]

theorem foldAttach_flat (stack : List (Str × Blk)) :
    ∀ (pending : Blk),
      flatB (foldAttach pending stack) = flatStack stack ++ flatB pending := by
  induction stack with
  | nil => intro pending; simp [foldAttach, flatStack]
  | cons e t ih =>
    intro pending
    obtain ⟨n, p⟩ := e
    rw [foldAttach, ih, flatB_attachChild, flatStack]
    simp

theorem finalizeStack_flat (root : List Blk) (stack : List (Str × Blk)) :
    flatItems (finalizeStack root stack) =
      flatItems root ++ flatStack stack := by
  cases stack with
  | nil => simp [finalizeStack, flatStack]
  | cons e t =>
    obtain ⟨n, b⟩ := e
    simp only [finalizeStack, flatItems_append, flatStack, flatItems]
    simp [foldAttach_flat]

/-- On lines that all match the numeric-prefix pattern, the ordered-list
loop accepts every line (no validation), producing one item per line whose
`(number, head)` pair is the line's captured dotted number and trailing
text, in document order. -/
theorem ordGo_all_matched :
    ∀ (lines : List Str) (fuel : Nat) (root : List Blk)
      (stack : List (Str × Blk)),
      (∀ l ∈ lines, (ordMatch (pyStrip l)).isSome) →
      lines.length < fuel →
      ∃ lb, ordGo fuel lines root stack = .ok lb ∧
        flatItems lb.items =
          flatItems root ++ flatStack stack ++
            lines.map (fun l =>
              match ordMatch (pyStrip l) with
              | some nt => (some nt.1, some nt.2)
              | none => (none, none)) := by
  intro lines
  induction lines with
  | nil =>
    intro fuel root stack _ hf
    obtain ⟨f, rfl⟩ : ∃ f, fuel = f + 1 := ⟨fuel - 1, by omega⟩
    exact ⟨_, rfl, by simp [finalizeStack_flat, LBlk.items]⟩
  | cons l rest ih =>
    intro fuel root stack hm hf
    obtain ⟨f, rfl⟩ : ∃ f, fuel = f + 1 := ⟨fuel - 1, by omega⟩
    have hl := hm l (List.mem_cons_self l rest)
    match he : ordMatch (pyStrip l) with
    | none => rw [he] at hl; simp at hl
    | some nt =>
      obtain ⟨n, t⟩ := nt
      have hne : ¬(pyStrip l = []) := by
        intro h0
        rw [h0] at he
        simp [ordMatch, List.takeWhile] at he
      obtain ⟨⟨root2, stack2⟩, hp⟩ :
          ∃ p, popWhile (n.count '.') root stack = p := ⟨_, rfl⟩
      obtain ⟨lb, hgo, hflat⟩ :=
        ih f root2 ((n, (⟨some n, some t, []⟩ : Blk)) :: stack2)
          (fun x hx => hm x (List.mem_cons_of_mem l hx)) (by simpa using hf)
      refine ⟨lb, ?_, ?_⟩
      · simp only [ordGo, if_neg hne, he, hp]
        exact hgo
      · rw [hflat]
        have hpres := popWhile_flat (n.count '.') root stack
        rw [hp] at hpres
        simp only [flatStack, flatB, flatBody, List.map_cons, he]
        simp only at hpres
        have key : (flatItems root2 ++ flatStack stack2) ++
              ((some n, some t) :: List.map (fun l =>
                match ordMatch (pyStrip l) with
                | some nt => (some nt.1, some nt.2)
                | none => (none, none)) rest) =
            (flatItems root ++ flatStack stack) ++
              ((some n, some t) :: List.map (fun l =>
                match ordMatch (pyStrip l) with
                | some nt => (some nt.1, some nt.2)
                | none => (none, none)) rest) := by rw [hpres]
        simpa [List.append_assoc] using key

/-- Claim C1: for an ordered list region (`kind="."`), each line matching
the numeric-prefix pattern becomes a Block item whose `number` is the
dotted prefix and whose `head` is the trailing text; the stack algorithm
places each item by dot-count level (popping while the stack top's level is
`≥` the new level, then appending at top level or into the parent's
trailing nested ListBlock); no numbering validation is performed — every
matching line yields exactly one item in document order, whatever its
number (general conjunct), and the four lines `1. A / 2. B / 2.1. C /
2.2. D` yield two top-level items with the two sub-items nested under item
`2` (concrete conjuncts, at the region level and end-to-end). -/
theorem C1_ordered_list_nesting :
    (processListLines 50 [str "1. A", str "2. B", str "2.1. C", str "2.2. D"]
        (str ".") =
      .ok ⟨[⟨some (str "1"), some (str "A"), []⟩,
            ⟨some (str "2"), some (str "B"),
             [.lst ⟨[⟨some (str "2.1"), some (str "C"), []⟩,
                     ⟨some (str "2.2"), some (str "D"), []⟩]⟩]⟩]⟩) ∧
    (pyParse 100 (str "<list kind=\".\">\n1. A\n1.1. B\n</list>") =
      .ok ⟨none, none, [.lst ⟨[⟨some (str "1"), some (str "A"),
        [.lst ⟨[⟨some (str "1.1"), some (str "B"), []⟩]⟩]⟩]⟩]⟩) ∧
    (∀ (lines : List Str) (fuel : Nat),
      (∀ l ∈ lines, (ordMatch (pyStrip l)).isSome) →
      lines.length < fuel →
      ∃ lb, ordGo fuel lines [] [] = .ok lb ∧
        flatItems lb.items =
          lines.map (fun l =>
            match ordMatch (pyStrip l) with
            | some nt => (some nt.1, some nt.2)
            | none => (none, none))) := by
  refine ⟨rfl, rfl, ?_⟩
  intro lines fuel hm hf
  obtain ⟨lb, hgo, hflat⟩ := ordGo_all_matched lines fuel [] [] hm hf
  exact ⟨lb, hgo, by simpa [flatItems, flatStack] using hflat⟩

/-- Witness for C1's general statement, on deliberately non-monotonic
numbering (`2.` before `1.`): both lines are still accepted as items, in
order, with their numbers stored verbatim. -/
theorem C1_ordered_list_nesting_witness :
    (∀ l ∈ [str "2. B", str "1. A"], (ordMatch (pyStrip l)).isSome) ∧
    (∃ lb, ordGo 5 [str "2. B", str "1. A"] [] [] = .ok lb ∧
      flatItems lb.items =
        [str "2. B", str "1. A"].map (fun l =>
          match ordMatch (pyStrip l) with
          | some nt => (some nt.1, some nt.2)
          | none => (none, none))) :=
  ⟨by decide,
   C1_ordered_list_nesting.2.2 [str "2. B", str "1. A"] 5 (by decide)
     (by decide)⟩

/-! ## Totality of the tokenizer -/

theorem advance1_rem (st : TokState) : (advance1 st).rem = st.rem.tail := by
  obtain ⟨rem, line, col⟩ := st
  cases rem with
  | nil => rfl
  | cons c t => simp only [advance1]; split <;> rfl

theorem advanceN_rem : ∀ (n : Nat) (st : TokState),
    (advanceN n st).rem = st.rem.drop n := by
  intro n
  induction n with
  | zero => intro st; rfl
  | succ k ih =>
    intro st
    show (advanceN k (advance1 st)).rem = _
    rw [ih, advance1_rem]
    cases st.rem with
    | nil => simp
    | cons c t => simp

theorem atTagL_isSome {l : Str} (h : atTagL l = true) :
    (matchTag l).isSome = true := by
  cases l with
  | nil => simp [atTagL] at h
  | cons c t =>
    unfold atTagL at h
    split at h
    · exact h
    · exact absurd h (by simp)

theorem matchTagAttrs_len_pos {isClose : Bool} {slashLen : Nat}
    {name run rest2 : Str} {m : TagM}
    (h : matchTagAttrs isClose slashLen name run rest2 = some m) :
    1 ≤ m.len := by
  unfold matchTagAttrs at h
  split at h
  · split at h
    · injection h with h; subst h; simp
    · exact absurd h (by simp)
  · exact absurd h (by simp)

theorem matchTagRest_len_pos {isClose : Bool} {slashLen : Nat}
    {name r2 : Str} {m : TagM}
    (h : matchTagRest isClose slashLen name r2 = some m) :
    1 ≤ m.len := by
  unfold matchTagRest at h
  split at h
  · injection h with h; subst h; simp
  · split at h
    · exact matchTagAttrs_len_pos h
    · exact absurd h (by simp)
  · exact absurd h (by simp)

theorem matchTagCore_len_pos {isClose : Bool} {slashLen : Nat} {r1 : Str}
    {m : TagM} (h : matchTagCore isClose slashLen r1 = some m) :
    1 ≤ m.len := by
  unfold matchTagCore at h
  split at h
  · exact absurd h (by simp)
  · exact matchTagRest_len_pos h

theorem matchTag_len_pos {l : Str} {m : TagM} (h : matchTag l = some m) :
    1 ≤ m.len := by
  unfold matchTag at h
  split at h
  · exact matchTagCore_len_pos h
  · exact matchTagCore_len_pos h
  · exact absurd h (by simp)

theorem takeTextChars_ne_nil {c : Char} {t : Str}
    (h : (atTagL (c :: t) || atNewlineL (c :: t)) = false) :
    takeTextChars (c :: t) = c :: takeTextChars t := by
  simp only [Bool.or_eq_false_iff] at h
  conv_lhs => rw [takeTextChars]
  rw [if_neg]
  simp [h.1, h.2]

/-- Each tokenizer step on a non-empty remainder succeeds (the `ValueError`
declared in `_read_tag` is unreachable, because `_at_tag` has already
checked the same pattern) and consumes at least one character. -/
theorem readNewline_rem_length (st : TokState) (c : Char) (t : Str)
    (hrem : st.rem = c :: t) :
    (readNewline st).2.rem.length < st.rem.length := by
  have hlen : st.rem.length = t.length + 1 := by rw [hrem]; rfl
  unfold readNewline
  split
  · simp only [advanceN_rem, List.length_drop]; omega
  · simp only [advanceN_rem, List.length_drop]; omega

theorem tokStep_ok (st : TokState) (c : Char) (t : Str)
    (hrem : st.rem = c :: t) :
    ∃ tok st', tokStep st = .ok (tok, st') ∧
      st'.rem.length < st.rem.length := by
  have hlen : st.rem.length = t.length + 1 := by rw [hrem]; rfl
  by_cases htag : atTag st
  · obtain ⟨m, hm⟩ := Option.isSome_iff_exists.mp (atTagL_isSome htag)
    have hread : readTag st =
        some (⟨if m.isClose then .tagClose else .tagOpen,
          st.rem.take m.len, st.line, st.column, some m.name,
          m.attrsStr.map parseAttributes⟩, advanceN m.len st) := by
      unfold readTag; rw [hm]; rfl
    refine ⟨⟨if m.isClose then .tagClose else .tagOpen,
        st.rem.take m.len, st.line, st.column, some m.name,
        m.attrsStr.map parseAttributes⟩, advanceN m.len st, ?_, ?_⟩
    · unfold tokStep
      rw [if_pos htag, hread]
    · rw [advanceN_rem, List.length_drop]
      have := matchTag_len_pos hm
      omega
  · by_cases hnl : atNewline st
    · refine ⟨(readNewline st).1, (readNewline st).2, ?_, ?_⟩
      · unfold tokStep
        rw [if_neg htag, if_pos hnl]
      · exact readNewline_rem_length st c t hrem
    · refine ⟨(readText st).1, (readText st).2, ?_, ?_⟩
      · unfold tokStep
        rw [if_neg htag, if_neg hnl]
      · have hta : atTagL (c :: t) = false := by
          rw [← hrem]; exact Bool.of_not_eq_true htag
        have hnn : atNewlineL (c :: t) = false := by
          rw [← hrem]; exact Bool.of_not_eq_true hnl
        have htxt : takeTextChars st.rem = c :: takeTextChars t := by
          rw [hrem]
          exact takeTextChars_ne_nil (by simp [hta, hnn])
        show (advanceN (takeTextChars st.rem).length st).rem.length < _
        rw [advanceN_rem, List.length_drop, htxt, hlen]
        simp only [List.length_cons]
        omega

/-- With fuel exceeding the remaining length, the tokenizer completes. -/
theorem tokenizeAux_ok : ∀ (fuel : Nat) (st : TokState),
    st.rem.length < fuel → ∃ ts, tokenizeAux fuel st = .ok ts := by
  intro fuel
  induction fuel with
  | zero => intro st h; omega
  | succ f ih =>
    intro st h
    match hrem : st.rem with
    | [] =>
      refine ⟨[⟨.eof, [], st.line, st.column, none, none⟩], ?_⟩
      unfold tokenizeAux
      rw [hrem]
    | c :: t =>
      obtain ⟨tok, st', hstep, hlt⟩ := tokStep_ok st c t hrem
      obtain ⟨ts, hts⟩ := ih st' (by omega)
      refine ⟨tok :: ts, ?_⟩
      have hstep' : tokenizeAux (f + 1) st =
          match tokStep st with
          | .error e => .error e
          | .ok (tok, st') =>
            match tokenizeAux f st' with
            | .error e => .error e
            | .ok ts => .ok (tok :: ts) := by
        conv_lhs => rw [tokenizeAux, hrem]
      rw [hstep', hstep]
      simp [hts]

/-- `Tokenizer.tokenize` succeeds on every input: the tokenizer has no
reachable failure path. -/
theorem tokenize_ok (l : Str) : ∃ ts, tokenize l = .ok ts :=
  tokenizeAux_ok (l.length + 1) ⟨l, 1, 1⟩ (by simp)

/-! ## Error-classification lemmas and claims C4 and C5 -/

theorem expectTag_error {name : Str} {closing : Bool} {ts : List Token}
    {e : PErr} (h : expectTag name closing ts = .error e) :
    ∃ l c, e = .parseError (expectedMsg name closing) l c := by
  unfold expectTag at h
  split at h
  all_goals split at h
  all_goals
    first
      | (injection h with h; exact ⟨_, _, h.symm⟩)
      | exact absurd h (by simp)

theorem errOK_expect {name : Str} {closing : Bool} {ts : List Token}
    {e : PErr}
    (hname : name = str "head" ∨ name = str "block" ∨ name = str "dict" ∨
      name = str "list")
    (h : expectTag name closing ts = .error e) : errOK e := by
  obtain ⟨l, c, rfl⟩ := expectTag_error h
  exact Or.inr (Or.inr ⟨_, _, _, rfl,
    Or.inr (Or.inr (Or.inr (Or.inr ⟨name, closing, rfl, hname⟩)))⟩)

theorem dictEntries_error {sep : Str} :
    ∀ {lines : List Str} {items : List (Str × Str)} {e : PErr},
      dictEntries sep lines items = .error e →
      e = .valueError (str "empty separator") := by
  intro lines
  induction lines with
  | nil => intro items e h; exact absurd h (by simp [dictEntries])
  | cons line rest ih =>
    intro items e h
    unfold dictEntries at h
    split at h
    · exact ih h
    · split at h
      · split at h
        · injection h with h; exact h.symm
        · exact ih h
      · exact ih h

theorem errOK_outOfFuel : errOK .outOfFuel := Or.inl rfl

theorem headGo_err_succ (f : Nat) (ih : ClassAll f) :
    ∀ buf ts e, headGo (f + 1) buf ts = .error e → errOK e := by
  intro buf ts e h
  simp only [headGo] at h
  split at h
  · split at h
    · rename_i heq
      injection h with h; subst h
      exact errOK_expect (Or.inl rfl) heq
    · exact absurd h (by simp)
  · split at h
    · exact ih.2.2.2.1 _ _ _ h
    · split at h
      · injection h with h; subst h
        exact Or.inr (Or.inr ⟨_, _, _, rfl, Or.inr (Or.inl rfl)⟩)
      · exact ih.2.2.2.1 _ _ _ h

theorem parseHead_err_succ (f : Nat) (ih : ClassAll f) :
    ∀ ts e, parseHead (f + 1) ts = .error e → errOK e := by
  intro ts e h
  simp only [parseHead] at h
  split at h
  · rename_i heq
    injection h with h; subst h
    exact errOK_expect (Or.inl rfl) heq
  · exact ih.2.2.2.1 _ _ _ h

theorem parseContent_err_succ (f : Nat) (ih : ClassAll f) :
    ∀ u buf acc ts e, parseContent (f + 1) u buf acc ts = .error e →
      errOK e := by
  intro u buf acc ts e h
  simp only [parseContent] at h
  split at h
  · exact absurd h (by simp)
  · split at h
    · exact absurd h (by simp)
    · split at h
      · injection h with h; subst h
        exact Or.inr (Or.inr ⟨_, _, _, rfl, Or.inl rfl⟩)
      · split at h
        · split at h
          · rename_i heq
            injection h with h; subst h
            exact ih.2.2.2.2.1 _ _ heq
          · exact ih.2.1 _ _ _ _ _ h
        · split at h
          · split at h
            · rename_i heq
              injection h with h; subst h
              exact ih.2.2.2.2.2.1 _ _ heq
            · exact ih.2.1 _ _ _ _ _ h
          · split at h
            · split at h
              · rename_i heq
                injection h with h; subst h
                exact ih.2.2.2.2.2.2.2.1 _ _ heq
              · exact ih.2.1 _ _ _ _ _ h
            · split at h
              · exact ih.2.1 _ _ _ _ _ h
              · split at h
                · exact ih.2.1 _ _ _ _ _ h
                · exact ih.2.1 _ _ _ _ _ h

theorem parseBlock_err_succ (f : Nat) (ih : ClassAll f) :
    ∀ ts e, parseBlock (f + 1) ts = .error e → errOK e := by
  intro ts e h
  simp only [parseBlock] at h
  split at h
  · rename_i heq
    injection h with h; subst h
    exact errOK_expect (Or.inr (Or.inl rfl)) heq
  · split at h
    · split at h
      · rename_i heq
        injection h with h; subst h
        exact ih.2.2.1 _ _ heq
      · split at h
        · rename_i heq
          injection h with h; subst h
          exact ih.2.1 _ _ _ _ _ heq
        · split at h
          · rename_i heq
            injection h with h; subst h
            exact errOK_expect (Or.inr (Or.inl rfl)) heq
          · exact absurd h (by simp)
    · split at h
      · rename_i heq
        injection h with h; subst h
        exact ih.2.1 _ _ _ _ _ heq
      · split at h
        · rename_i heq
          injection h with h; subst h
          exact errOK_expect (Or.inr (Or.inl rfl)) heq
        · exact absurd h (by simp)

theorem dictGo_err_succ (f : Nat) (ih : ClassAll f) :
    ∀ sep cl ls ts e, dictGo (f + 1) sep cl ls ts = .error e → errOK e := by
  intro sep cl ls ts e h
  simp only [dictGo] at h
  split at h
  · split at h
    · rename_i heq
      injection h with h; subst h
      exact Or.inr (Or.inl (dictEntries_error heq))
    · split at h
      · rename_i heq
        injection h with h; subst h
        exact errOK_expect (Or.inr (Or.inr (Or.inl rfl))) heq
      · exact absurd h (by simp)
  · split at h
    · exact ih.2.2.2.2.2.2.1 _ _ _ _ _ h
    · split at h
      · split at h
        · exact ih.2.2.2.2.2.2.1 _ _ _ _ _ h
        · exact ih.2.2.2.2.2.2.1 _ _ _ _ _ h
      · split at h
        · injection h with h; subst h
          exact Or.inr (Or.inr ⟨_, _, _, rfl, Or.inr (Or.inr (Or.inl rfl))⟩)
        · exact ih.2.2.2.2.2.2.1 _ _ _ _ _ h

theorem parseDict_err_succ (f : Nat) (ih : ClassAll f) :
    ∀ ts e, parseDict (f + 1) ts = .error e → errOK e := by
  intro ts e h
  simp only [parseDict] at h
  split at h
  · rename_i heq
    injection h with h; subst h
    exact errOK_expect (Or.inr (Or.inr (Or.inl rfl))) heq
  · exact ih.2.2.2.2.2.2.1 _ _ _ _ _ h

theorem listGo_err_succ (f : Nat) (ih : ClassAll f) :
    ∀ kind parts ts e, listGo (f + 1) kind parts ts = .error e →
      errOK e := by
  intro kind parts ts e h
  simp only [listGo] at h
  split at h
  · split at h
    · rename_i heq
      injection h with h; subst h
      exact errOK_expect (Or.inr (Or.inr (Or.inr rfl))) heq
    · split at h
      · rename_i heq
        injection h with h; subst h
        exact ih.2.2.2.2.2.2.2.2.2.1 _ _ _ heq
      · exact absurd h (by simp)
  · split at h
    · injection h with h; subst h
      exact Or.inr (Or.inr ⟨_, _, _, rfl, Or.inr (Or.inr (Or.inr (Or.inl rfl)))⟩)
    · split at h
      · exact ih.2.2.2.2.2.2.2.2.1 _ _ _ _ h
      · split at h
        · exact ih.2.2.2.2.2.2.2.2.1 _ _ _ _ h
        · split at h
          · exact ih.2.2.2.2.2.2.2.2.1 _ _ _ _ h
          · split at h
            · exact ih.2.2.2.2.2.2.2.2.1 _ _ _ _ h
            · exact ih.2.2.2.2.2.2.2.2.1 _ _ _ _ h

theorem parseList_err_succ (f : Nat) (ih : ClassAll f) :
    ∀ ts e, parseList (f + 1) ts = .error e → errOK e := by
  intro ts e h
  simp only [parseList] at h
  split at h
  · rename_i heq
    injection h with h; subst h
    exact errOK_expect (Or.inr (Or.inr (Or.inr rfl))) heq
  · exact ih.2.2.2.2.2.2.2.2.1 _ _ _ _ h

theorem processListLines_err_succ (f : Nat) (ih : ClassAll f) :
    ∀ ls kind e, processListLines (f + 1) ls kind = .error e → errOK e := by
  intro ls kind e h
  simp only [processListLines] at h
  split at h
  · exact ih.2.2.2.2.2.2.2.2.2.2 _ _ _ _ h
  · split at h
    · exact absurd h (by simp)
    · exact absurd h (by simp)

theorem ordGo_err_succ (f : Nat) (ih : ClassAll f) :
    ∀ ls root stack e, ordGo (f + 1) ls root stack = .error e → errOK e := by
  intro ls root stack e h
  simp only [ordGo] at h
  split at h
  · exact absurd h (by simp)
  · split at h
    · exact ih.2.2.2.2.2.2.2.2.2.2 _ _ _ _ h
    · split at h
      · exact ih.2.2.2.2.2.2.2.2.2.2 _ _ _ _ h
      · split at h
        · exact ih.2.2.2.2.2.2.2.2.2.2 _ _ _ _ h
        · split at h
          · split at h
            · rename_i heq
              injection h with h; subst h
              obtain ⟨ts2, hts2⟩ := tokenize_ok _
              rw [hts2] at heq
              exact absurd heq (by simp)
            · split at h
              · rename_i heq
                injection h with h; subst h
                exact ih.1 _ _ heq
              · exact ih.2.2.2.2.2.2.2.2.2.2 _ _ _ _ h
          · exact ih.2.2.2.2.2.2.2.2.2.2 _ _ _ _ h

theorem parseTokens_err_succ (f : Nat) (ih : ClassAll f) :
    ∀ ts e, parseTokens (f + 1) ts = .error e → errOK e := by
  intro ts e h
  simp only [parseTokens] at h
  split at h
  · split at h
    · rename_i heq
      injection h with h; subst h
      exact ih.2.2.1 _ _ heq
    · split at h
      · rename_i heq
        injection h with h; subst h
        exact ih.2.1 _ _ _ _ _ heq
      · exact absurd h (by simp)
  · split at h
    · rename_i heq
      injection h with h; subst h
      exact ih.2.1 _ _ _ _ _ heq
    · exact absurd h (by simp)

/-- Every error produced at any fuel by any routine is classified. -/
theorem classAll : ∀ f, ClassAll f := by
  intro f
  induction f with
  | zero =>
    refine ⟨?_, ?_, ?_, ?_, ?_, ?_, ?_, ?_, ?_, ?_, ?_⟩ <;>
      (intros; rename_i h2; injection h2 with h2; subst h2;
        exact errOK_outOfFuel)
  | succ f ih =>
    exact ⟨parseTokens_err_succ f ih, parseContent_err_succ f ih,
      parseHead_err_succ f ih, headGo_err_succ f ih,
      parseBlock_err_succ f ih, parseDict_err_succ f ih,
      dictGo_err_succ f ih, parseList_err_succ f ih,
      listGo_err_succ f ih, processListLines_err_succ f ih,
      ordGo_err_succ f ih⟩

/-- Claim C4: every `ParseError` the parser raises is one of the listed
conditions — an expected-tag mismatch (`"Expected opening/closing X tag"`
for the four tag names), a head tag mid-content, or premature end-of-input
in a head, dict, or list region (general conjunct) — and the concrete
error cases carry the offending token's 1-based line and column: the
claim's `"<block>unclosed"` example fails expecting the closing `block`
tag at the end-of-input position (line 1, column 16), and one example of
each other condition is evaluated. -/
theorem C4_parse_error_conditions :
    pyParse 100 (str "<block>unclosed") =
      .error (.parseError (str "Expected closing block tag") 1 16) ∧
    pyParse 100 (str "<dict>K:V") =
      .error (.parseError (str "Unexpected EOF in dict tag") 1 10) ∧
    pyParse 100 (str "<block><head>x</head></dict>") =
      .error (.parseError (str "Expected closing block tag") 1 29) ∧
    pyParse 100 (str "head <head>x</head>") =
      .error (.parseError (str "Unexpected head tag in content") 1 6) ∧
    pyParse 100 (str "<list kind=\".\">\n1. x") =
      .error (.parseError (str "Unexpected EOF in list tag") 2 5) ∧
    pyParse 100 (str "<head>x") =
      .error (.parseError (str "Unexpected EOF in head tag") 1 8) ∧
    (∀ (fuel : Nat) (text : Str) (m : Str) (l c : Nat),
      pyParse fuel text = .error (.parseError m l c) → msgOK m) := by
  refine ⟨rfl, rfl, rfl, rfl, rfl, rfl, ?_⟩
  intro fuel text m l c h
  unfold pyParse at h
  obtain ⟨ts, hts⟩ := tokenize_ok text
  rw [hts] at h
  have h2 : parseTokens fuel ts = .error (.parseError m l c) := h
  rcases (classAll fuel).1 _ _ h2 with h3 | h3 | ⟨m2, l2, c2, heq, hm⟩
  · exact absurd h3 (by simp)
  · exact absurd h3 (by simp)
  · injection heq with e1 e2 e3
    exact e1 ▸ hm

/-- Witness for C4's general conjunct at a concrete failing input. -/
theorem C4_parse_error_conditions_witness :
    pyParse 10 (str "<block>") =
      .error (.parseError (str "Expected closing block tag") 1 8) ∧
    msgOK (str "Expected closing block tag") :=
  ⟨rfl, C4_parse_error_conditions.2.2.2.2.2.2 10 (str "<block>")
    (str "Expected closing block tag") 1 8 rfl⟩

/-- Claim C5 counterexample: a dict region whose `sep` attribute is the
empty string reaches Python's `line.split("", 1)`, which raises
`ValueError: empty separator` — an exception that is not a `ParseError`
escapes the parse. -/
theorem C5_only_parse_error_cex :
    pyParse 100 (str "<dict sep=\"\">x</dict>") =
      .error (.valueError (str "empty separator")) := rfl

/-- Claim C5 as amended: the tokenizer never fails on any input (malformed
`<...` sequences fall through to text), and the top-level parse either
returns a root Block or raises an error which is a `ParseError` — except
that a dict region with an empty `sep` attribute and a non-empty line
raises `ValueError: empty separator` (and the fuelled embedding can also
report fuel exhaustion, which corresponds to no Python behaviour). -/
theorem C5_failure_modes :
    (∀ l : Str, ∃ ts, tokenize l = .ok ts) ∧
    (∀ (fuel : Nat) (text : Str) (e : PErr), pyParse fuel text = .error e →
      e = .outOfFuel ∨ e = .valueError (str "empty separator") ∨
      ∃ m l c, e = .parseError m l c) := by
  refine ⟨tokenize_ok, ?_⟩
  intro fuel text e h
  unfold pyParse at h
  obtain ⟨ts, hts⟩ := tokenize_ok text
  rw [hts] at h
  have h2 : parseTokens fuel ts = .error e := h
  rcases (classAll fuel).1 _ _ h2 with h3 | h3 | ⟨m2, l2, c2, heq, _⟩
  · exact Or.inl h3
  · exact Or.inr (Or.inl h3)
  · exact Or.inr (Or.inr ⟨m2, l2, c2, heq⟩)

/-- Witness for C5's parse-failure conjunct at a concrete input. -/
theorem C5_failure_modes_witness :
    pyParse 10 (str "<block>") =
      .error (.parseError (str "Expected closing block tag") 1 8) ∧
    (PErr.parseError (str "Expected closing block tag") 1 8 = .outOfFuel ∨
      PErr.parseError (str "Expected closing block tag") 1 8 =
        .valueError (str "empty separator") ∨
      ∃ m l c, PErr.parseError (str "Expected closing block tag") 1 8 =
        .parseError m l c) :=
  ⟨rfl, C5_failure_modes.2 10 (str "<block>") _ rfl⟩

/-! ## Number-invariant lemmas and claim C8 -/

theorem bodyUnnum_append (a b : List CNode) :
    bodyUnnum (a ++ b) = (bodyUnnum a && bodyUnnum b) := by
  induction a with
  | nil => simp [bodyUnnum]
  | cons x t ih => simp [bodyUnnum, ih, Bool.and_assoc]

theorem itemsUnnum_append (a b : List Blk) :
    itemsUnnum (a ++ b) = (itemsUnnum a && itemsUnnum b) := by
  induction a with
  | nil => simp [itemsUnnum]
  | cons x t ih =>
    obtain ⟨n, hd, body⟩ := x
    simp [itemsUnnum, ih, Bool.and_assoc]

theorem bodyUnnum_map_text (l : List Str) :
    bodyUnnum (l.map CNode.text) = true := by
  induction l with
  | nil => rfl
  | cons x t ih => simp [bodyUnnum, nodeUnnum, ih]

theorem bodyUnnum_flushText (buf : List Str) (acc : List CNode) :
    bodyUnnum (flushText buf acc) = bodyUnnum acc := by
  unfold flushText
  split
  · rfl
  · split
    · rfl
    · rw [bodyUnnum_append, bodyUnnum_map_text, Bool.and_true]

theorem itemUnnum_attachChild {p c : Blk}
    (hp : bodyUnnum p.body = true) (hc : bodyUnnum c.body = true) :
    bodyUnnum (attachChild p c).body = true := by
  obtain ⟨n, h, body⟩ := p
  simp only [Blk.body_mk] at hp
  match hl : body.getLast? with
  | none =>
    have hb : body = [] := List.getLast?_eq_none_iff.mp hl
    subst hb
    simp [attachChild, hl, bodyUnnum, nodeUnnum, lstUnnum, itemsUnnum]
    obtain ⟨cn, ch, cb⟩ := c
    simpa [itemsUnnum] using hc
  | some x =>
    have hne : body ≠ [] := by
      intro hb; rw [hb] at hl; simp [List.getLast?] at hl
    have hx : body.getLast hne = x := by
      rw [List.getLast?_eq_getLast _ hne] at hl
      exact (Option.some.injEq _ _ ▸ hl)
    have hbody : body.dropLast ++ [x] = body := by
      rw [← hx]; exact List.dropLast_append_getLast hne
    cases x with
    | lst lb =>
      obtain ⟨items⟩ := lb
      simp only [attachChild, Blk.body_mk, hl]
      rw [← hbody, bodyUnnum_append] at hp
      simp only [bodyUnnum, nodeUnnum, lstUnnum, Bool.and_eq_true,
        Bool.and_true] at hp
      obtain ⟨cn, ch, cb⟩ := c
      simp only [Blk.body_mk] at hc
      rw [bodyUnnum_append]
      simp [bodyUnnum, nodeUnnum, lstUnnum, itemsUnnum_append, itemsUnnum,
        hp.1, hp.2, hc]
    | text s =>
      simp only [attachChild, Blk.body_mk, hl]
      rw [bodyUnnum_append]
      obtain ⟨cn, ch, cb⟩ := c
      simp only [Blk.body_mk] at hc
      simp [bodyUnnum, nodeUnnum, lstUnnum, itemsUnnum, hp, hc]
    | blk b2 =>
      simp only [attachChild, Blk.body_mk, hl]
      rw [bodyUnnum_append]
      obtain ⟨cn, ch, cb⟩ := c
      simp only [Blk.body_mk] at hc
      simp [bodyUnnum, nodeUnnum, lstUnnum, itemsUnnum, hp, hc]
    | dct d =>
      simp only [attachChild, Blk.body_mk, hl]
      rw [bodyUnnum_append]
      obtain ⟨cn, ch, cb⟩ := c
      simp only [Blk.body_mk] at hc
      simp [bodyUnnum, nodeUnnum, lstUnnum, itemsUnnum, hp, hc]

theorem itemsUnnum_single {b : Blk} (hb : bodyUnnum b.body = true) :
    itemsUnnum [b] = true := by
  obtain ⟨n, h, body⟩ := b
  simpa [itemsUnnum] using hb

theorem popWhileGo_unnum (level : Nat) :
    ∀ (stack : List (Str × Blk)) (root : List Blk) (pending : Blk),
      itemsUnnum root = true → stackUnnum stack = true →
      bodyUnnum pending.body = true →
      itemsUnnum (popWhileGo level root pending stack).1 = true ∧
      stackUnnum (popWhileGo level root pending stack).2 = true := by
  intro stack
  induction stack with
  | nil =>
    intro root pending hr _ hp
    simp [popWhileGo, itemsUnnum_append, hr, itemsUnnum_single hp,
      stackUnnum]
  | cons e t ih =>
    intro root pending hr hs hp
    obtain ⟨n2, p⟩ := e
    simp only [stackUnnum, Bool.and_eq_true] at hs
    by_cases hc : level ≤ n2.count '.'
    · simp only [popWhileGo, if_pos hc]
      exact ih root (attachChild p pending) hr hs.2
        (itemUnnum_attachChild hs.1 hp)
    · simp only [popWhileGo, if_neg hc]
      refine ⟨hr, ?_⟩
      simp [stackUnnum, itemUnnum_attachChild hs.1 hp, hs.2]

theorem popWhile_unnum (level : Nat) (root : List Blk)
    (stack : List (Str × Blk)) (hr : itemsUnnum root = true)
    (hs : stackUnnum stack = true) :
    itemsUnnum (popWhile level root stack).1 = true ∧
    stackUnnum (popWhile level root stack).2 = true := by
  cases stack with
  | nil => simpa [popWhile] using ⟨hr, rfl⟩
  | cons e t =>
    obtain ⟨n, b⟩ := e
    simp only [stackUnnum, Bool.and_eq_true] at hs
    by_cases hc : level ≤ n.count '.'
    · simp only [popWhile, if_pos hc]
      exact popWhileGo_unnum level t root b hr hs.2 hs.1
    · simp only [popWhile, if_neg hc]
      exact ⟨hr, by simp [stackUnnum, hs.1, hs.2]⟩

theorem foldAttach_unnum :
    ∀ (stack : List (Str × Blk)) (pending : Blk),
      stackUnnum stack = true → bodyUnnum pending.body = true →
      bodyUnnum (foldAttach pending stack).body = true := by
  intro stack
  induction stack with
  | nil => intro pending _ hp; simpa [foldAttach] using hp
  | cons e t ih =>
    intro pending hs hp
    obtain ⟨n, p⟩ := e
    simp only [stackUnnum, Bool.and_eq_true] at hs
    exact ih (attachChild p pending) hs.2 (itemUnnum_attachChild hs.1 hp)

theorem finalizeStack_unnum (root : List Blk) (stack : List (Str × Blk))
    (hr : itemsUnnum root = true) (hs : stackUnnum stack = true) :
    itemsUnnum (finalizeStack root stack) = true := by
  cases stack with
  | nil => simpa [finalizeStack] using hr
  | cons e t =>
    obtain ⟨n, b⟩ := e
    simp only [stackUnnum, Bool.and_eq_true] at hs
    simp only [finalizeStack, itemsUnnum_append, Bool.and_eq_true]
    exact ⟨hr, itemsUnnum_single (foldAttach_unnum t b hs.2 hs.1)⟩

theorem unordGo_unnum :
    ∀ (lines : List Str) (items : List Blk) (currentItem : Option Blk),
      itemsUnnum items = true →
      (∀ b, currentItem = some b → bodyUnnum b.body = true) →
      itemsUnnum (unordGo items currentItem lines).items = true := by
  intro lines
  induction lines with
  | nil =>
    intro items currentItem hi hc
    cases currentItem with
    | none => simpa [unordGo] using hi
    | some b =>
      simp [unordGo, itemsUnnum_append, hi, itemsUnnum_single (hc b rfl)]
  | cons line rest ih =>
    intro items currentItem hi hc
    simp only [unordGo]
    split
    · exact ih items currentItem hi hc
    · split
      · cases currentItem with
        | some b =>
          refine ih _ _ ?_ ?_
          · simp [itemsUnnum_append, hi, itemsUnnum_single (hc b rfl)]
          · rintro b2 hb2
            injection hb2 with hb2
            subst hb2
            rfl
        | none =>
          refine ih _ _ hi ?_
          rintro b2 hb2
          injection hb2 with hb2
          subst hb2
          rfl
      · split
        · next x b =>
          split
          · refine ih _ _ hi ?_
            rintro b2 hb2
            injection hb2 with hb2
            subst hb2
            exact itemUnnum_attachChild (hc b rfl) rfl
          · refine ih _ _ hi ?_
            rintro b2 hb2
            injection hb2 with hb2
            subst hb2
            simp only [Blk.body_mk, bodyUnnum_append, Bool.and_eq_true]
            exact ⟨hc b rfl, by simp [bodyUnnum, nodeUnnum]⟩
        · refine ih _ _ hi ?_
          rintro b2 hb2
          exact absurd hb2 (by simp)

theorem parseContent_good_succ (f : Nat) (ih : GoodAll f) :
    ∀ u buf acc ts r, bodyUnnum acc = true →
      parseContent (f + 1) u buf acc ts = .ok r → bodyUnnum r.1 = true := by
  intro u buf acc ts r hacc h
  simp only [parseContent] at h
  split at h
  · injection h with h; subst h
    simpa [bodyUnnum_flushText] using hacc
  · split at h
    · injection h with h; subst h
      simpa [bodyUnnum_flushText] using hacc
    · split at h
      · exact absurd h (by simp)
      · split at h
        · split at h
          · exact absurd h (by simp)
          · next b ts1 heq =>
            refine ih.2.1 _ _ _ _ _ ?_ h
            have hb := (ih.2.2.1 _ _ heq).2
            simp [bodyUnnum_append, bodyUnnum_flushText, bodyUnnum,
              nodeUnnum, hacc, hb]
        · split at h
          · split at h
            · exact absurd h (by simp)
            · refine ih.2.1 _ _ _ _ _ ?_ h
              simp [bodyUnnum_append, bodyUnnum_flushText, bodyUnnum,
                nodeUnnum, hacc]
          · split at h
            · split at h
              · exact absurd h (by simp)
              · next l ts1 heq =>
                obtain ⟨items⟩ := l
                have hl := ih.2.2.2.1 _ _ heq
                simp only [LBlk_items_mk] at hl
                refine ih.2.1 _ _ _ _ _ ?_ h
                simp [bodyUnnum_append, bodyUnnum_flushText, bodyUnnum,
                  nodeUnnum, lstUnnum, hacc, hl]
            · split at h
              · exact ih.2.1 _ _ _ _ _ hacc h
              · split at h
                · exact ih.2.1 _ _ _ _ _ hacc h
                · exact ih.2.1 _ _ _ _ _ hacc h

theorem parseBlock_good_succ (f : Nat) (ih : GoodAll f) :
    ∀ ts r, parseBlock (f + 1) ts = .ok r →
      r.1.number = none ∧ blkUnnum r.1 = true := by
  intro ts r h
  simp only [parseBlock] at h
  split at h
  · exact absurd h (by simp)
  · split at h
    · split at h
      · exact absurd h (by simp)
      · split at h
        · exact absurd h (by simp)
        · next body ts4 heq =>
          split at h
          · exact absurd h (by simp)
          · injection h with h; subst h
            refine ⟨rfl, ?_⟩
            simp only [blkUnnum, Option.isNone_none, Bool.true_and]
            exact ih.2.1 _ _ [] _ _ rfl heq
    · split at h
      · exact absurd h (by simp)
      · next body ts4 heq =>
        split at h
        · exact absurd h (by simp)
        · injection h with h; subst h
          refine ⟨rfl, ?_⟩
          simp only [blkUnnum, Option.isNone_none, Bool.true_and]
          exact ih.2.1 _ _ [] _ _ rfl heq

theorem ordGo_good_succ (f : Nat) (ih : GoodAll f) :
    ∀ ls root stack lb, itemsUnnum root = true → stackUnnum stack = true →
      ordGo (f + 1) ls root stack = .ok lb → itemsUnnum lb.items = true := by
  intro ls root stack lb hr hs h
  simp only [ordGo] at h
  split at h
  · injection h with h; subst h
    simpa using finalizeStack_unnum root stack hr hs
  · split at h
    · exact ih.2.2.2.2.2.2 _ _ _ _ hr hs h
    · split at h
      · refine ih.2.2.2.2.2.2 _ _ _ _
          (popWhile_unnum _ root stack hr hs).1 ?_ h
        simp [stackUnnum, bodyUnnum,
          (popWhile_unnum _ root stack hr hs).2]
      · split at h
        · exact ih.2.2.2.2.2.2 _ _ _ _ hr hs h
        · next n0 top stk =>
          simp only [stackUnnum, Bool.and_eq_true] at hs
          split at h
          · split at h
            · exact absurd h (by simp)
            · split at h
              · exact absurd h (by simp)
              · next parsed heq =>
                obtain ⟨pn, ph, pbody⟩ := parsed
                refine ih.2.2.2.2.2.2 _ _ _ _ hr ?_ h
                have hgood := (ih.1 _ _ heq).2
                simp only [blkUnnum, Bool.and_eq_true] at hgood
                simp [stackUnnum, bodyUnnum_append, hs.1, hs.2, hgood.2]
          · refine ih.2.2.2.2.2.2 _ _ _ _ hr ?_ h
            simp [stackUnnum, bodyUnnum_append, hs.1, hs.2, bodyUnnum,
              nodeUnnum]

theorem processListLines_good_succ (f : Nat) (ih : GoodAll f) :
    ∀ ls kind lb, processListLines (f + 1) ls kind = .ok lb →
      itemsUnnum lb.items = true := by
  intro ls kind lb h
  simp only [processListLines] at h
  split at h
  · exact ih.2.2.2.2.2.2 _ [] [] _ rfl rfl h
  · split at h
    · injection h with h; subst h
      refine unordGo_unnum ls [] none rfl ?_
      rintro b hb
      exact absurd hb (by simp)
    · injection h with h; subst h; rfl

theorem listGo_good_succ (f : Nat) (ih : GoodAll f) :
    ∀ kind parts ts r, listGo (f + 1) kind parts ts = .ok r →
      itemsUnnum r.1.items = true := by
  intro kind parts ts r h
  simp only [listGo] at h
  split at h
  · split at h
    · exact absurd h (by simp)
    · split at h
      · exact absurd h (by simp)
      · next lb heq =>
        injection h with h; subst h
        exact ih.2.2.2.2.2.1 _ _ _ heq
  · split at h
    · exact absurd h (by simp)
    · split at h
      · exact ih.2.2.2.2.1 _ _ _ _ h
      · split at h
        · exact ih.2.2.2.2.1 _ _ _ _ h
        · split at h
          · exact ih.2.2.2.2.1 _ _ _ _ h
          · split at h
            · exact ih.2.2.2.2.1 _ _ _ _ h
            · exact ih.2.2.2.2.1 _ _ _ _ h

theorem parseList_good_succ (f : Nat) (ih : GoodAll f) :
    ∀ ts r, parseList (f + 1) ts = .ok r →
      itemsUnnum r.1.items = true := by
  intro ts r h
  simp only [parseList] at h
  split at h
  · exact absurd h (by simp)
  · exact ih.2.2.2.2.1 _ _ _ _ h

theorem parseTokens_good_succ (f : Nat) (ih : GoodAll f) :
    ∀ ts root, parseTokens (f + 1) ts = .ok root →
      root.number = none ∧ blkUnnum root = true := by
  intro ts root h
  simp only [parseTokens] at h
  split at h
  · split at h
    · exact absurd h (by simp)
    · split at h
      · exact absurd h (by simp)
      · next body ts2 heq =>
        injection h with h; subst h
        refine ⟨rfl, ?_⟩
        simp only [blkUnnum, Option.isNone_none, Bool.true_and]
        exact ih.2.1 _ _ [] _ _ rfl heq
  · split at h
    · exact absurd h (by simp)
    · next body ts2 heq =>
      injection h with h; subst h
      refine ⟨rfl, ?_⟩
      simp only [blkUnnum, Option.isNone_none, Bool.true_and]
      exact ih.2.1 _ _ [] _ _ rfl heq

/-- The number invariant holds at every fuel for every routine. -/
theorem goodAll : ∀ f, GoodAll f := by
  intro f
  induction f with
  | zero =>
    refine ⟨?_, ?_, ?_, ?_, ?_, ?_, ?_⟩ <;>
      (intros; rename_i h;
        simp only [parseTokens, parseContent, parseBlock, parseList, listGo,
          processListLines, ordGo] at h;
        exact absurd h (by simp))
  | succ f ih =>
    refine ⟨parseTokens_good_succ f ih, parseContent_good_succ f ih,
      parseBlock_good_succ f ih, parseList_good_succ f ih,
      listGo_good_succ f ih, processListLines_good_succ f ih,
      ordGo_good_succ f ih⟩

/-- Claim C8: in every tree returned by the parse, the root Block and
every Block in body position (in particular every Block produced by
parsing a `block` tag) have `number = none`; a non-`none` number can only
sit on the items of a `ListBlock`, which are produced by the list-line
algorithms (`blkUnnum` checks exactly this, recursively, exempting
`ListBlock` items whose numbers the ordered-list algorithm assigns). -/
theorem C8_number_only_on_list_items :
    ∀ (fuel : Nat) (text : Str) (root : Blk),
      pyParse fuel text = .ok root →
      root.number = none ∧ blkUnnum root = true := by
  intro fuel text root h
  unfold pyParse at h
  obtain ⟨ts, hts⟩ := tokenize_ok text
  rw [hts] at h
  have h2 : parseTokens fuel ts = .ok root := h
  exact (goodAll fuel).1 _ _ h2

/-- Witness for C8 at a concrete parsed block. -/
theorem C8_number_only_on_list_items_witness :
    pyParse 20 (str "<block>x</block>") =
      .ok ⟨none, none, [.blk ⟨none, none, [.text ['x']]⟩]⟩ ∧
    ((⟨none, none, [.blk ⟨none, none, [.text ['x']]⟩]⟩ : Blk).number = none ∧
      blkUnnum ⟨none, none, [.blk ⟨none, none, [.text ['x']]⟩]⟩ = true) :=
  ⟨rfl, C8_number_only_on_list_items 20 (str "<block>x</block>") _ rfl⟩

end TimeToAct

